import Mathlib

/-!
Verification of the `kvs` log-structured key-value store (`src/lib.rs`).

The store keeps an append-only log file of RON-encoded commands, one per
line, and an in-memory index mapping each key to the byte offset of its
latest `Set` record.  We shallowly embed the engine: the log file is a
`List Char` (one character per byte of the ASCII-clean encoding), the
`HashMap<String, u64>` index is an association list, and each fallible
Rust method becomes a function returning an `Except` result together
with the (possibly mutated) store state, mirroring `&mut self` methods
that mutate in place even when they return `Err`.
-/

/-- The command type from `src/lib.rs`: `enum Command` with variants
`Set { key, value }` and `Remove { key }`. -/
inductive Command where
  | Set (key value : String)
  | Remove (key : String)
deriving DecidableEq, Repr

/-- The key a command refers to. -/
def cmdKey : Command → String
  | .Set k _ => k
  | .Remove k => k

/-- The error type from `src/lib.rs`: `enum KvStoreError` with variants
`FileOpenError`, `KeyNotFound`, `CommandConvertError`, `UnknownError`. -/
inductive KvStoreError where
  | FileOpenError (msg : String)
  | KeyNotFound (key : String)
  | CommandConvertError (msg : String)
  | UnknownError (msg : String)
deriving DecidableEq, Repr

/-- `impl From<std::io::Error> for KvStoreError` in `src/lib.rs`: every
I/O error is converted to `FileOpenError` carrying the error's message. -/
def fromIoError (msg : String) : KvStoreError :=
  KvStoreError.FileOpenError msg

/-- `impl From<ron::Error> for KvStoreError` in `src/lib.rs`: every
serialization error is converted to `CommandConvertError`. -/
def fromRonError (msg : String) : KvStoreError :=
  KvStoreError.CommandConvertError msg

/-! ### RON encoding of commands

`ron::to_string` renders `Command::Set { key, value }` as
`Set(key:"…",value:"…")` and `Command::Remove { key }` as
`Remove(key:"…")`, escaping in string literals the characters that the
RON string syntax cannot hold verbatim (backslash, double quote, and the
control characters newline, carriage return, tab).  The newline escape is
what keeps every encoded record on a single line of the log. -/

/-- RON string-literal escaping for one character. -/
def escapeChar (c : Char) : List Char :=
  if c = '\\' then ['\\', '\\']
  else if c = '"' then ['\\', '"']
  else if c = '\n' then ['\\', 'n']
  else if c = '\r' then ['\\', 'r']
  else if c = '\t' then ['\\', 't']
  else [c]

/-- RON string-literal escaping for a character list. -/
def escList : List Char → List Char
  | [] => []
  | c :: t => escapeChar c ++ escList t

/-- A RON string literal: opening quote, escaped body, closing quote. -/
def quoteChars (s : String) : List Char :=
  '"' :: (escList s.data ++ ['"'])

/-- `ron::to_string` on a `Command` (the characters of the encoded record,
without the trailing newline the store appends separately). -/
def ronToString : Command → List Char
  | .Set k v =>
      "Set(key:".data ++ quoteChars k ++ ",value:".data ++ quoteChars v ++ [')']
  | .Remove k =>
      "Remove(key:".data ++ quoteChars k ++ [')']

/-! ### RON decoding

`ron::from_str::<Command>` parses one encoded command, tolerating
surrounding whitespace (so a line still carrying its trailing `'\n'`
parses) and rejecting any input with leftover non-whitespace text. -/

/-- Whitespace as skipped by the RON parser around a value. -/
def isWsChar (c : Char) : Bool :=
  c = ' ' || c = '\n' || c = '\r' || c = '\t'

/-- Consume an exact literal from the front of the input, or fail. -/
def dropLit : List Char → List Char → Option (List Char)
  | [], s => some s
  | _ :: _, [] => none
  | p :: ps, d :: s => if p = d then dropLit ps s else none

/-- Decode one RON string escape character. -/
def parseEscChar (c : Char) : Option Char :=
  if c = '\\' then some '\\'
  else if c = '"' then some '"'
  else if c = 'n' then some '\n'
  else if c = 'r' then some '\r'
  else if c = 't' then some '\t'
  else none

/-- Parse the body of a RON string literal after the opening quote:
returns the decoded characters and what follows the closing quote. -/
def parseStrBody : List Char → Option (List Char × List Char)
  | [] => none
  | c :: rest =>
    if c = '"' then some ([], rest)
    else if c = '\\' then
      match rest with
      | [] => none
      | e :: rest2 =>
        match parseEscChar e with
        | none => none
        | some u => (parseStrBody rest2).map (fun p => (u :: p.1, p.2))
    else (parseStrBody rest).map (fun p => (c :: p.1, p.2))

/-- Parse a quoted RON string literal. -/
def parseQuoted (l : List Char) : Option (String × List Char) :=
  match l with
  | '"' :: rest => (parseStrBody rest).map (fun p => (String.mk p.1, p.2))
  | _ => none

/-- `ron::from_str::<Command>` on a chunk of text. -/
def parseCommand (l : List Char) : Option Command :=
  let l := l.dropWhile isWsChar
  match dropLit "Set(key:".data l with
  | some r1 =>
    match parseQuoted r1 with
    | none => none
    | some (k, r2) =>
      match dropLit ",value:".data r2 with
      | none => none
      | some r3 =>
        match parseQuoted r3 with
        | none => none
        | some (v, r4) =>
          match dropLit ")".data r4 with
          | none => none
          | some r5 =>
            if (r5.dropWhile isWsChar).isEmpty then some (Command.Set k v) else none
  | none =>
    match dropLit "Remove(key:".data l with
    | none => none
    | some r1 =>
      match parseQuoted r1 with
      | none => none
      | some (k, r2) =>
        match dropLit ")".data r2 with
        | none => none
        | some r3 =>
          if (r3.dropWhile isWsChar).isEmpty then some (Command.Remove k) else none

/-! ### The in-memory index

`HashMap<String, u64>` modelled as an association list without duplicate
keys; iteration order is unspecified in Rust, so no claim depends on the
order of entries, only on lookups and on the entry multiset. -/

/-- The index: key to byte offset of its latest live `Set` record. -/
abbrev IndexMap := List (String × Nat)

/-- `HashMap::get`. -/
def lookupA : IndexMap → String → Option Nat
  | [], _ => none
  | (k', v) :: t, k => if k' = k then some v else lookupA t k

/-- `HashMap::remove`: drop the entry for a key. -/
def eraseA : IndexMap → String → IndexMap
  | [], _ => []
  | (k', v) :: t, k => if k' = k then eraseA t k else (k', v) :: eraseA t k

/-- `HashMap::insert`: replace any entry for the key with the new one. -/
def insertA (m : IndexMap) (k : String) (v : Nat) : IndexMap :=
  (k, v) :: eraseA m k

/-- Keys of the index. -/
def keysOf (m : IndexMap) : List String := m.map Prod.fst

/-- An index with no duplicate keys (always true of a `HashMap`). -/
def NodupKeys (m : IndexMap) : Prop := (keysOf m).Nodup

/-! ### The store -/

/-- `struct KvStore`: the log file contents stand in for the open file
handle, the rest of the fields are as in the source. -/
structure KvStore where
  file_handle : List Char
  map : IndexMap
  is_build : Bool
  count_of_set : Nat
deriving DecidableEq, Repr

/-- `KvStore::open` on a directory: ensure a log file named `.kvs_store`
exists inside it (create if missing, do not truncate) and return a store
with that file's current contents, an empty index, `is_build = false` and
a zeroed write counter.  `existing` is the contents of a pre-existing log
file, or `none` when the file had to be created. -/
def openDir (existing : Option (List Char)) : KvStore :=
  { file_handle := existing.getD []
    map := []
    is_build := false
    count_of_set := 0 }

/-- `KvStore::open` including the fallible `OpenOptions::open` call: an
I/O failure is converted by `From<std::io::Error>` into the error type. -/
def KvStore.open (io : Except String (Option (List Char))) : Except KvStoreError KvStore :=
  match io with
  | Except.error msg => Except.error (fromIoError msg)
  | Except.ok existing => Except.ok (openDir existing)

/-- `read_line` starting at the current position: the characters up to and
including the first `'\n'`, or everything to end of file if none. -/
def takeLine : List Char → List Char
  | [] => []
  | c :: rest => if c = '\n' then ['\n'] else c :: takeLine rest

theorem takeLine_length_le (l : List Char) : (takeLine l).length ≤ l.length := by
  induction l with
  | nil => simp [takeLine]
  | cons c rest ih =>
    simp only [takeLine]
    by_cases h : c = '\n'
    · simp [h]
    · simp only [h, if_false, List.length_cons]
      omega

theorem takeLine_length_pos (l : List Char) (h : l ≠ []) : 0 < (takeLine l).length := by
  cases l with
  | nil => exact absurd rfl h
  | cons c rest =>
    simp only [takeLine]
    by_cases hc : c = '\n' <;> simp [hc]

/-- `KvStore::fetch_value`: seek to the offset, read one line, decode it,
and return the value if it is a `Set` record; a decode failure is a
`CommandConvertError` (via `From<ron::Error>`), a record of the wrong
variant is the `UnknownError` built in the source. -/
def fetch_value (file : List Char) (offset : Nat) : Except KvStoreError String :=
  match parseCommand (takeLine (file.drop offset)) with
  | none => Except.error (fromRonError "parse error")
  | some (Command.Set _ value) => Except.ok value
  | some (Command.Remove _) => Except.error (KvStoreError.UnknownError "Command info not matched")

/-- The replay loop of `KvStore::build_map`: read one line at a time from
the remaining file, decode it, apply `Set` records as index insertions at
the running offset and `Remove` records as deletions, and stop at end of
file.  On a decode failure the error is returned with the partially
updated index, as the Rust loop mutates `self.map` as it goes. -/
def buildLoop (l : List Char) (cur : Nat) (m : IndexMap) : Except KvStoreError Unit × IndexMap :=
  if _h : l = [] then (Except.ok (), m)
  else
    match parseCommand (takeLine l) with
    | none => (Except.error (fromRonError "parse error"), m)
    | some (Command.Set key _) =>
        buildLoop (l.drop (takeLine l).length) (cur + (takeLine l).length) (insertA m key cur)
    | some (Command.Remove key) =>
        buildLoop (l.drop (takeLine l).length) (cur + (takeLine l).length) (eraseA m key)
termination_by l.length
decreasing_by
  all_goals
    simp only [List.length_drop]
    have h1 := takeLine_length_pos l (by assumption)
    have h2 : 0 < l.length := List.length_pos.mpr (by assumption)
    omega

/-- `KvStore::build_map`: no-op when `is_build` is already set, otherwise
replay the whole log from offset 0 over the current index and set
`is_build` on success. -/
def KvStore.build_map (s : KvStore) : Except KvStoreError Unit × KvStore :=
  if s.is_build then (Except.ok (), s)
  else
    match buildLoop s.file_handle 0 s.map with
    | (Except.ok _, m) => (Except.ok (), { s with map := m, is_build := true })
    | (Except.error e, m) => (Except.error e, { s with map := m })

/-- The loop body of `KvStore::compaction`: for each `(key, offset)` entry
of the index in iteration order, fetch the current value at the offset and
append a fresh encoded `Set` record (plus newline) to the in-memory
buffer; the first fetch failure aborts with that error. -/
def compactData (file : List Char) : IndexMap → Except KvStoreError (List Char)
  | [] => Except.ok []
  | (k, off) :: rest =>
    match fetch_value file off with
    | Except.error e => Except.error e
    | Except.ok v =>
        (compactData file rest).map (fun d => (ronToString (Command.Set k v) ++ ['\n']) ++ d)

/-- `KvStore::compaction`: ensure the index is built, rewrite the log to
hold exactly one `Set` record per index entry, and clear `is_build`; the
index itself is left in place (now holding stale offsets).  On a failure
the file is untouched, since the buffer is only written at the end. -/
def KvStore.compaction (s : KvStore) : Except KvStoreError Unit × KvStore :=
  match KvStore.build_map s with
  | (Except.error e, s1) => (Except.error e, s1)
  | (Except.ok _, s1) =>
    match compactData s1.file_handle s1.map with
    | Except.error e => (Except.error e, s1)
    | Except.ok data => (Except.ok (), { s1 with file_handle := data, is_build := false })

/-- `KvStore::set`: encode a `Set` record, append it (plus newline) at the
end of the file, insert `key -> old end-of-file offset` into the index,
bump the write counter, and when the counter exceeds 100 run compaction
and reset the counter to zero (the reset is skipped when compaction
fails, as the `?` operator returns early). -/
def KvStore.set (s : KvStore) (key value : String) : Except KvStoreError Unit × KvStore :=
  let cmd := ronToString (Command.Set key value) ++ ['\n']
  let offset := s.file_handle.length
  let s1 : KvStore :=
    { file_handle := s.file_handle ++ cmd
      map := insertA s.map key offset
      is_build := s.is_build
      count_of_set := s.count_of_set + 1 }
  if s1.count_of_set > 100 then
    match KvStore.compaction s1 with
    | (Except.ok _, s2) => (Except.ok (), { s2 with count_of_set := 0 })
    | (Except.error e, s2) => (Except.error e, s2)
  else
    (Except.ok (), s1)

/-- `KvStore::get`: ensure the index is built, look the key up, and fetch
the value at the stored offset; an absent key is the `Ok(None)` outcome. -/
def KvStore.get (s : KvStore) (key : String) : Except KvStoreError (Option String) × KvStore :=
  match KvStore.build_map s with
  | (Except.error e, s1) => (Except.error e, s1)
  | (Except.ok _, s1) =>
    match lookupA s1.map key with
    | some offset =>
      match fetch_value s1.file_handle offset with
      | Except.ok v => (Except.ok (some v), s1)
      | Except.error e => (Except.error e, s1)
    | none => (Except.ok none, s1)

/-- `KvStore::remove`: ensure the index is built, fail with `KeyNotFound`
when the key is absent, otherwise append an encoded `Remove` record (plus
newline) and delete the key from the index. -/
def KvStore.remove (s : KvStore) (key : String) : Except KvStoreError Unit × KvStore :=
  match KvStore.build_map s with
  | (Except.error e, s1) => (Except.error e, s1)
  | (Except.ok _, s1) =>
    if (lookupA s1.map key).isSome then
      (Except.ok (),
        { s1 with
          file_handle := s1.file_handle ++ (ronToString (Command.Remove key) ++ ['\n'])
          map := eraseA s1.map key })
    else
      (Except.error (KvStoreError.KeyNotFound key), s1)

/-! ### Fault injection

The Rust methods perform fallible encoding and I/O; to reason about the
error paths of `set` and `remove` we expose the three fallible steps that
follow the absent-key check — `ron::to_string`, `seek(End)`, `write_all`
— as injectable faults.  `none` everywhere recovers the pure functions. -/

/-- Injected failures for the encode/seek/write steps of a mutation. -/
structure Faults where
  encodeE : Option String
  seekE : Option String
  writeE : Option String
deriving DecidableEq, Repr

/-- `KvStore::set` with injectable encode/seek/write failures: the error
conversions are `From<ron::Error>` for the encode step and
`From<std::io::Error>` for the I/O steps; no state is touched before the
write succeeds. -/
def KvStore.setF (fl : Faults) (s : KvStore) (key value : String) :
    Except KvStoreError Unit × KvStore :=
  match fl.encodeE with
  | some m => (Except.error (fromRonError m), s)
  | none =>
    match fl.seekE with
    | some m => (Except.error (fromIoError m), s)
    | none =>
      match fl.writeE with
      | some m => (Except.error (fromIoError m), s)
      | none => KvStore.set s key value

/-- `KvStore::remove` with injectable encode/seek/write failures: the
`build_map` call and the absent-key check run first, exactly as in the
source, so a later failure still leaves the built index behind. -/
def KvStore.removeF (fl : Faults) (s : KvStore) (key : String) :
    Except KvStoreError Unit × KvStore :=
  match KvStore.build_map s with
  | (Except.error e, s1) => (Except.error e, s1)
  | (Except.ok _, s1) =>
    if (lookupA s1.map key).isSome then
      match fl.encodeE with
      | some m => (Except.error (fromRonError m), s1)
      | none =>
        match fl.seekE with
        | some m => (Except.error (fromIoError m), s1)
        | none =>
          match fl.writeE with
          | some m => (Except.error (fromIoError m), s1)
          | none =>
            (Except.ok (),
              { s1 with
                file_handle := s1.file_handle ++ (ronToString (Command.Remove key) ++ ['\n'])
                map := eraseA s1.map key })
    else
      (Except.error (KvStoreError.KeyNotFound key), s1)

/-! ### Specification-side log semantics

The log denotes a sequence of commands; replay folds them into an index.
These definitions are the yardstick the engine is proved against. -/

/-- A whole log: each command encoded and newline-terminated. -/
def encodeLog : List Command → List Char
  | [] => []
  | c :: t => ronToString c ++ '\n' :: encodeLog t

/-- Encoded length of one record including its newline delimiter. -/
def cmdLen (c : Command) : Nat := (ronToString c).length + 1

/-- Replay a command list over an index, tracking the running offset. -/
def replayCmds : IndexMap → Nat → List Command → IndexMap
  | m, _, [] => m
  | m, off, c :: rest =>
    match c with
    | Command.Set k _ => replayCmds (insertA m k off) (off + cmdLen c) rest
    | Command.Remove k => replayCmds (eraseA m k) (off + cmdLen c) rest

/-- The index a fresh replay of a log derives. -/
def semMap (cmds : List Command) : IndexMap := replayCmds [] 0 cmds

/-- The last record of a log touching a key, together with the offset and
value when it is a `Set`: `none` when the key is untouched, `some none`
when the last touch is a `Remove`, `some (some (off, v))` when the last
touch is `Set _ v` at offset `off`. -/
def lastSetOff (k : String) (off : Nat) : List Command → Option (Option (Nat × String))
  | [] => none
  | c :: rest =>
    match lastSetOff k (off + cmdLen c) rest with
    | some r => some r
    | none =>
      match c with
      | Command.Set k' v => if k' = k then some (some (off, v)) else none
      | Command.Remove k' => if k' = k then some none else none

/-- The last record of a log touching a key. -/
def lastCmdFor (cmds : List Command) (k : String) : Option Command :=
  match cmds with
  | [] => none
  | c :: rest =>
    match lastCmdFor rest k with
    | some r => some r
    | none => if cmdKey c = k then some c else none

/-- The value a log associates to a key: the value of the last `Set`
record for it, unless a later `Remove` cancels it. -/
def logValue (cmds : List Command) (k : String) : Option String :=
  match lastCmdFor cmds k with
  | some (Command.Set _ v) => some v
  | _ => none

/-- The value stored by the one-line record at an offset, when that
record is a `Set`. -/
def fetchSet? (file : List Char) (offset : Nat) : Option String :=
  match parseCommand (takeLine (file.drop offset)) with
  | some (Command.Set _ v) => some v
  | _ => none

/-- The command list compaction writes out for an index over a file. -/
def compactCmds (file : List Char) (m : IndexMap) : List Command :=
  m.map (fun p => Command.Set p.1 ((fetchSet? file p.2).getD ""))

/-- Well-formedness of a store: the log is a clean encoding of some
command sequence; when the index is built its lookups agree with a fresh
replay of that sequence, and when it is not, every indexed key is at
least mentioned in the log (so the pending replay will overwrite it). -/
def StoreInv (s : KvStore) : Prop :=
  NodupKeys s.map ∧
  ∃ cmds : List Command,
    s.file_handle = encodeLog cmds ∧
    (s.is_build = true → ∀ k, lookupA s.map k = lookupA (semMap cmds) k) ∧
    (s.is_build = false → ∀ k, k ∈ keysOf s.map → k ∈ cmds.map cmdKey)

/-- Store states reachable through the public API, starting from `open`
on a directory whose log file is absent or was written by this engine. -/
inductive Reachable : KvStore → Prop where
  | openStore (cmds : List Command) : Reachable (openDir (some (encodeLog cmds)))
  | setStep (s : KvStore) (k v : String) :
      Reachable s → Reachable (KvStore.set s k v).2
  | getStep (s : KvStore) (k : String) :
      Reachable s → Reachable (KvStore.get s k).2
  | removeStep (s : KvStore) (k : String) :
      Reachable s → Reachable (KvStore.remove s k).2
  | compactStep (s : KvStore) :
      Reachable s → Reachable (KvStore.compaction s).2

/-! ## Lemmas: encoding stays on one line -/

theorem escapeChar_no_newline (c : Char) : '\n' ∉ escapeChar c := by
  unfold escapeChar
  split_ifs with h1 h2 h3 h4 h5
  · decide
  · decide
  · decide
  · decide
  · decide
  · simp only [List.mem_singleton]
    exact fun h => h3 h.symm

theorem escList_no_newline (l : List Char) : '\n' ∉ escList l := by
  induction l with
  | nil => simp [escList]
  | cons c t ih =>
    simp only [escList, List.mem_append]
    rintro (h | h)
    · exact escapeChar_no_newline c h
    · exact ih h

theorem quoteChars_no_newline (s : String) : '\n' ∉ quoteChars s := by
  simp only [quoteChars, List.mem_cons, List.mem_append, List.mem_singleton]
  rintro (h | h | h)
  · exact absurd h.symm (by decide)
  · exact escList_no_newline _ h
  · exact absurd h (by decide)

theorem ronToString_no_newline (c : Command) : '\n' ∉ ronToString c := by
  cases c with
  | Set k v =>
    simp only [ronToString, List.mem_append, List.mem_singleton]
    rintro ((((h | h) | h) | h) | h)
    · revert h; decide
    · exact quoteChars_no_newline _ h
    · revert h; decide
    · exact quoteChars_no_newline _ h
    · revert h; decide
  | Remove k =>
    simp only [ronToString, List.mem_append, List.mem_singleton]
    rintro ((h | h) | h)
    · revert h; decide
    · exact quoteChars_no_newline _ h
    · revert h; decide

theorem takeLine_append_newline (a b : List Char) (ha : '\n' ∉ a) :
    takeLine (a ++ '\n' :: b) = a ++ ['\n'] := by
  induction a with
  | nil => simp [takeLine]
  | cons c t ih =>
    have hc : c ≠ '\n' := fun h => ha (h ▸ List.mem_cons_self c t)
    simp only [List.cons_append, takeLine, if_neg hc, List.append_eq]
    rw [ih (fun h => ha (List.mem_cons_of_mem c h))]

theorem encodeLog_append (xs ys : List Command) :
    encodeLog (xs ++ ys) = encodeLog xs ++ encodeLog ys := by
  induction xs with
  | nil => simp [encodeLog]
  | cons c t ih => simp [encodeLog, ih]

theorem encodeLog_cons_eq (c : Command) (t : List Command) :
    encodeLog (c :: t) = (ronToString c ++ ['\n']) ++ encodeLog t := by
  show ronToString c ++ '\n' :: encodeLog t = _
  rw [List.append_cons]

theorem encodeLog_cons_length (c : Command) (t : List Command) :
    (encodeLog (c :: t)).length = cmdLen c + (encodeLog t).length := by
  rw [encodeLog_cons_eq, List.length_append, List.length_append]
  simp only [List.length_singleton, cmdLen]

/-! ## Lemmas: the decoder inverts the encoder -/

theorem dropLit_append_self (p r : List Char) : dropLit p (p ++ r) = some r := by
  induction p with
  | nil => rfl
  | cons c t ih => simp [dropLit, ih]

theorem parseStrBody_escList (l r : List Char) :
    parseStrBody (escList l ++ '"' :: r) = some (l, r) := by
  induction l with
  | nil =>
    simp only [escList, List.nil_append]
    rw [parseStrBody.eq_def]
    simp
  | cons c t ih =>
    by_cases h1 : c = '\\'
    · subst h1
      have e1 : escapeChar '\\' = ['\\', '\\'] := by decide
      simp only [escList, e1, List.cons_append]
      rw [parseStrBody.eq_def]
      simp [parseEscChar, ih]
    · by_cases h2 : c = '"'
      · subst h2
        have e1 : escapeChar '"' = ['\\', '"'] := by decide
        simp only [escList, e1, List.cons_append]
        rw [parseStrBody.eq_def]
        simp [parseEscChar, ih]
      · by_cases h3 : c = '\n'
        · subst h3
          have e1 : escapeChar '\n' = ['\\', 'n'] := by decide
          simp only [escList, e1, List.cons_append]
          rw [parseStrBody.eq_def]
          simp [parseEscChar, ih]
        · by_cases h4 : c = '\r'
          · subst h4
            have e1 : escapeChar '\r' = ['\\', 'r'] := by decide
            simp only [escList, e1, List.cons_append]
            rw [parseStrBody.eq_def]
            simp [parseEscChar, ih]
          · by_cases h5 : c = '\t'
            · subst h5
              have e1 : escapeChar '\t' = ['\\', 't'] := by decide
              simp only [escList, e1, List.cons_append]
              rw [parseStrBody.eq_def]
              simp [parseEscChar, ih]
            · have e1 : escapeChar c = [c] := by
                simp [escapeChar, h1, h2, h3, h4, h5]
              simp only [escList, e1, List.cons_append, List.singleton_append]
              rw [parseStrBody.eq_def]
              simp [h1, h2, ih]

theorem parseQuoted_quoteChars (s : String) (r : List Char) :
    parseQuoted (quoteChars s ++ r) = some (s, r) := by
  simp only [quoteChars, List.cons_append, parseQuoted, List.append_assoc,
    List.singleton_append, List.nil_append]
  rw [parseStrBody_escList]
  simp

theorem dropWhile_ws_of_all (l : List Char) (h : ∀ c ∈ l, isWsChar c = true) :
    l.dropWhile isWsChar = [] := by
  induction l with
  | nil => rfl
  | cons c t ih =>
    rw [List.dropWhile_cons]
    simp only [h c (List.mem_cons_self c t), if_true]
    exact ih (fun x hx => h x (List.mem_cons_of_mem c hx))

theorem parseCommand_ron (c : Command) (trail : List Char)
    (htrail : ∀ x ∈ trail, isWsChar x = true) :
    parseCommand (ronToString c ++ trail) = some c := by
  cases c with
  | Set k v =>
    have hshape : ronToString (Command.Set k v) ++ trail =
        "Set(key:".data ++
          (quoteChars k ++ (",value:".data ++ (quoteChars v ++ (")".data ++ trail)))) := by
      simp [ronToString]
    rw [hshape]
    have hdw : List.dropWhile isWsChar
        ("Set(key:".data ++
          (quoteChars k ++ (",value:".data ++ (quoteChars v ++ (")".data ++ trail))))) =
        "Set(key:".data ++
          (quoteChars k ++ (",value:".data ++ (quoteChars v ++ (")".data ++ trail)))) := by
      rw [show "Set(key:".data ++
          (quoteChars k ++ (",value:".data ++ (quoteChars v ++ (")".data ++ trail)))) =
          'S' :: ("et(key:".data ++
            (quoteChars k ++ (",value:".data ++ (quoteChars v ++ (")".data ++ trail)))))
          from rfl]
      rw [List.dropWhile_cons]
      simp [isWsChar]
    simp only [parseCommand, hdw, dropLit_append_self, parseQuoted_quoteChars]
    simp [dropWhile_ws_of_all trail htrail]
  | Remove k =>
    have hshape : ronToString (Command.Remove k) ++ trail =
        "Remove(key:".data ++ (quoteChars k ++ (")".data ++ trail)) := by
      simp [ronToString]
    rw [hshape]
    have hdw : List.dropWhile isWsChar
        ("Remove(key:".data ++ (quoteChars k ++ (")".data ++ trail))) =
        "Remove(key:".data ++ (quoteChars k ++ (")".data ++ trail)) := by
      rw [show "Remove(key:".data ++ (quoteChars k ++ (")".data ++ trail)) =
          'R' :: ("emove(key:".data ++ (quoteChars k ++ (")".data ++ trail))) from rfl]
      rw [List.dropWhile_cons]
      simp [isWsChar]
    have hnoset : dropLit "Set(key:".data
        ("Remove(key:".data ++ (quoteChars k ++ (")".data ++ trail))) = none := by
      rfl
    simp only [parseCommand, hdw, hnoset, dropLit_append_self, parseQuoted_quoteChars]
    simp [dropWhile_ws_of_all trail htrail]

theorem parseCommand_ron_nl (c : Command) :
    parseCommand (ronToString c ++ ['\n']) = some c := by
  exact parseCommand_ron c ['\n'] (by intro x hx; simp at hx; simp [hx, isWsChar])

theorem parseCommand_ron_nil (c : Command) :
    parseCommand (ronToString c) = some c := by
  have := parseCommand_ron c [] (by intro x hx; simp at hx)
  simpa using this

/-! ## Lemmas: the index -/

theorem eraseA_cons_self (k : String) (v : Nat) (t : IndexMap) :
    eraseA ((k, v) :: t) k = eraseA t k := by
  simp [eraseA]

theorem eraseA_cons_ne (k' k : String) (v : Nat) (t : IndexMap) (h : k' ≠ k) :
    eraseA ((k', v) :: t) k = (k', v) :: eraseA t k := by
  simp [eraseA, h]

theorem lookupA_cons_self (k : String) (v : Nat) (t : IndexMap) :
    lookupA ((k, v) :: t) k = some v := by
  simp [lookupA]

theorem lookupA_cons_ne (k' k : String) (v : Nat) (t : IndexMap) (h : k' ≠ k) :
    lookupA ((k', v) :: t) k = lookupA t k := by
  simp [lookupA, h]

theorem lookupA_eraseA (m : IndexMap) (k q : String) :
    lookupA (eraseA m k) q = if k = q then none else lookupA m q := by
  induction m with
  | nil => simp [eraseA, lookupA]
  | cons p t ih =>
    obtain ⟨k', v⟩ := p
    by_cases h1 : k' = k
    · subst h1
      rw [eraseA_cons_self, ih]
      by_cases h2 : k' = q
      · simp [h2]
      · rw [if_neg h2, if_neg h2, lookupA_cons_ne k' q v t h2]
    · rw [eraseA_cons_ne k' k v t h1]
      by_cases h2 : k' = q
      · subst h2
        rw [lookupA_cons_self, lookupA_cons_self, if_neg (fun hh : k = k' => h1 hh.symm)]
      · rw [lookupA_cons_ne k' q v _ h2, lookupA_cons_ne k' q v t h2, ih]

theorem lookupA_insertA (m : IndexMap) (k q : String) (v : Nat) :
    lookupA (insertA m k v) q = if k = q then some v else lookupA m q := by
  simp only [insertA]
  by_cases h : k = q
  · subst h
    rw [lookupA_cons_self, if_pos rfl]
  · rw [lookupA_cons_ne k q v _ h, lookupA_eraseA, if_neg h, if_neg h]

theorem mem_keysOf_iff_lookupA (m : IndexMap) (k : String) :
    k ∈ keysOf m ↔ (lookupA m k).isSome = true := by
  induction m with
  | nil => simp [keysOf, lookupA]
  | cons p t ih =>
    obtain ⟨k', v⟩ := p
    by_cases h : k' = k
    · subst h
      simp [keysOf, lookupA]
    · rw [lookupA_cons_ne k' k v t h]
      simp only [keysOf, List.map_cons, List.mem_cons]
      constructor
      · rintro (hh | hh)
        · exact absurd hh.symm h
        · exact ih.mp hh
      · intro hh
        exact Or.inr (ih.mpr hh)

theorem lookupA_none_of_not_mem (m : IndexMap) (k : String) (h : k ∉ keysOf m) :
    lookupA m k = none := by
  have hs := (mem_keysOf_iff_lookupA m k).not.mp h
  cases hl : lookupA m k with
  | none => rfl
  | some v => rw [hl] at hs; simp at hs

theorem mem_keysOf_eraseA (m : IndexMap) (k q : String) :
    q ∈ keysOf (eraseA m k) ↔ q ∈ keysOf m ∧ q ≠ k := by
  induction m with
  | nil => simp [eraseA, keysOf]
  | cons p t ih =>
    obtain ⟨k', v⟩ := p
    by_cases h1 : k' = k
    · subst h1
      rw [eraseA_cons_self, ih]
      simp only [keysOf, List.map_cons, List.mem_cons]
      constructor
      · rintro ⟨hm, hq⟩
        exact ⟨Or.inr hm, hq⟩
      · rintro ⟨hm | hm, hq⟩
        · exact absurd hm hq
        · exact ⟨hm, hq⟩
    · rw [eraseA_cons_ne k' k v t h1]
      simp only [keysOf, List.map_cons, List.mem_cons]
      constructor
      · rintro (hq | hq)
        · subst hq
          exact ⟨Or.inl rfl, h1⟩
        · obtain ⟨hm, hne⟩ := ih.mp hq
          exact ⟨Or.inr hm, hne⟩
      · rintro ⟨hm | hm, hq⟩
        · exact Or.inl hm
        · exact Or.inr (ih.mpr ⟨hm, hq⟩)

theorem eraseA_of_not_mem (m : IndexMap) (k : String) (h : k ∉ keysOf m) :
    eraseA m k = m := by
  induction m with
  | nil => rfl
  | cons p t ih =>
    obtain ⟨k', v⟩ := p
    simp only [keysOf, List.map_cons, List.mem_cons] at h
    push_neg at h
    have h1 : k' ≠ k := fun hh => h.1 hh.symm
    rw [eraseA_cons_ne k' k v t h1, ih (by simpa [keysOf] using h.2)]

theorem NodupKeys_eraseA (m : IndexMap) (k : String) (h : NodupKeys m) :
    NodupKeys (eraseA m k) := by
  induction m with
  | nil => exact h
  | cons p t ih =>
    obtain ⟨k', v⟩ := p
    simp only [NodupKeys, keysOf, List.map_cons, List.nodup_cons] at h
    by_cases h1 : k' = k
    · subst h1
      rw [eraseA_cons_self]
      exact ih h.2
    · rw [eraseA_cons_ne k' k v t h1]
      simp only [NodupKeys, keysOf, List.map_cons, List.nodup_cons]
      refine ⟨fun hmem => ?_, ih h.2⟩
      exact h.1 ((mem_keysOf_eraseA t k k').mp hmem).1

theorem NodupKeys_insertA (m : IndexMap) (k : String) (v : Nat) (h : NodupKeys m) :
    NodupKeys (insertA m k v) := by
  simp only [insertA, NodupKeys, keysOf, List.map_cons, List.nodup_cons]
  constructor
  · intro hmem
    exact ((mem_keysOf_eraseA m k k).mp hmem).2 rfl
  · exact NodupKeys_eraseA m k h

theorem lookupA_entry (m : IndexMap) (p : String × Nat) (hn : NodupKeys m) (hp : p ∈ m) :
    lookupA m p.1 = some p.2 := by
  induction m with
  | nil => simp at hp
  | cons q t ih =>
    obtain ⟨k', v'⟩ := q
    simp only [NodupKeys, keysOf, List.map_cons, List.nodup_cons] at hn
    rcases List.mem_cons.mp hp with h | h
    · subst h
      exact lookupA_cons_self _ _ _
    · have hne : k' ≠ p.1 := by
        intro hh
        exact hn.1 (hh ▸ (List.mem_map.mpr ⟨p, h, rfl⟩))
      rw [lookupA_cons_ne k' p.1 v' t hne]
      exact ih hn.2 h

theorem perm_cons_eraseA (m : IndexMap) (k : String) (v : Nat) (hn : NodupKeys m)
    (h : lookupA m k = some v) : m.Perm ((k, v) :: eraseA m k) := by
  induction m with
  | nil => simp [lookupA] at h
  | cons p t ih =>
    obtain ⟨k', v'⟩ := p
    simp only [NodupKeys, keysOf, List.map_cons, List.nodup_cons] at hn
    by_cases h1 : k' = k
    · subst h1
      rw [lookupA_cons_self] at h
      injection h with h
      subst h
      rw [eraseA_cons_self, eraseA_of_not_mem t k' hn.1]
    · rw [lookupA_cons_ne k' k v' t h1] at h
      have step := ih hn.2 h
      rw [eraseA_cons_ne k' k v' t h1]
      exact (List.Perm.cons _ step).trans (List.Perm.swap _ _ _)

theorem perm_of_lookupA_eq (m1 : IndexMap) : ∀ m2 : IndexMap, NodupKeys m1 → NodupKeys m2 →
    (∀ k, lookupA m1 k = lookupA m2 k) → m1.Perm m2 := by
  induction m1 with
  | nil =>
    intro m2 _ _ h
    cases m2 with
    | nil => exact List.Perm.refl _
    | cons p t =>
      obtain ⟨k, v⟩ := p
      have hk := h k
      rw [lookupA_cons_self] at hk
      simp [lookupA] at hk
  | cons p t ih =>
    intro m2 hn1 hn2 h
    obtain ⟨k, v⟩ := p
    have hk2 : lookupA m2 k = some v := by
      have hk := h k
      rw [lookupA_cons_self] at hk
      exact hk.symm
    simp only [NodupKeys, keysOf, List.map_cons, List.nodup_cons] at hn1
    have htail : t.Perm (eraseA m2 k) := by
      refine ih (eraseA m2 k) hn1.2 (NodupKeys_eraseA m2 k hn2) ?_
      intro q
      by_cases hq : q = k
      · subst hq
        rw [lookupA_none_of_not_mem t q (by simpa [keysOf] using hn1.1)]
        rw [lookupA_eraseA]
        simp
      · have hq2 := h q
        rw [lookupA_cons_ne k q v t (fun hh => hq hh.symm)] at hq2
        rw [hq2, lookupA_eraseA, if_neg (fun hh : k = q => hq hh.symm)]
    exact (List.Perm.cons _ htail).trans (perm_cons_eraseA m2 k v hn2 hk2).symm

/-! ## Lemmas: replay semantics -/

theorem buildLoop_nil (cur : Nat) (m : IndexMap) :
    buildLoop [] cur m = (Except.ok (), m) := by
  rw [buildLoop]
  simp

theorem replayCmds_set (m : IndexMap) (off : Nat) (k v : String) (t : List Command) :
    replayCmds m off (Command.Set k v :: t) =
      replayCmds (insertA m k off) (off + cmdLen (Command.Set k v)) t := rfl

theorem replayCmds_rm (m : IndexMap) (off : Nat) (k : String) (t : List Command) :
    replayCmds m off (Command.Remove k :: t) =
      replayCmds (eraseA m k) (off + cmdLen (Command.Remove k)) t := rfl

theorem buildLoop_encodeLog (cmds : List Command) : ∀ (cur : Nat) (m : IndexMap),
    buildLoop (encodeLog cmds) cur m = (Except.ok (), replayCmds m cur cmds) := by
  induction cmds with
  | nil =>
    intro cur m
    rw [show encodeLog [] = [] from rfl, buildLoop_nil]
    rfl
  | cons c t ih =>
    intro cur m
    have hne : encodeLog (c :: t) ≠ [] := by
      rw [encodeLog_cons_eq]
      cases c <;> simp [ronToString]
    have hline : takeLine (encodeLog (c :: t)) = ronToString c ++ ['\n'] := by
      rw [show encodeLog (c :: t) = ronToString c ++ '\n' :: encodeLog t from rfl]
      exact takeLine_append_newline _ _ (ronToString_no_newline c)
    have hparse : parseCommand (takeLine (encodeLog (c :: t))) = some c := by
      rw [hline]
      exact parseCommand_ron_nl c
    have hdrop : (encodeLog (c :: t)).drop (takeLine (encodeLog (c :: t))).length =
        encodeLog t := by
      rw [hline, encodeLog_cons_eq]
      rw [show (ronToString c ++ ['\n']).length = (ronToString c ++ ['\n']).length from rfl]
      exact List.drop_left _ _
    have hlen : (takeLine (encodeLog (c :: t))).length = cmdLen c := by
      rw [hline]
      simp [cmdLen]
    rw [buildLoop, dif_neg hne, hparse]
    cases c with
    | Set k v =>
      simp only []
      rw [hdrop, hlen, ih, replayCmds_set]
    | Remove k =>
      simp only []
      rw [hdrop, hlen, ih, replayCmds_rm]

theorem lastSetOff_set (k : String) (off : Nat) (k' v : String) (t : List Command) :
    lastSetOff k off (Command.Set k' v :: t) =
      (match lastSetOff k (off + cmdLen (Command.Set k' v)) t with
       | some r => some r
       | none => if k' = k then some (some (off, v)) else none) := rfl

theorem lastSetOff_rm (k : String) (off : Nat) (k' : String) (t : List Command) :
    lastSetOff k off (Command.Remove k' :: t) =
      (match lastSetOff k (off + cmdLen (Command.Remove k')) t with
       | some r => some r
       | none => if k' = k then some none else none) := rfl

theorem replayCmds_lookup (cmds : List Command) : ∀ (m : IndexMap) (off : Nat) (k : String),
    lookupA (replayCmds m off cmds) k =
      (match lastSetOff k off cmds with
       | some (some p) => some p.1
       | some none => none
       | none => lookupA m k) := by
  induction cmds with
  | nil =>
    intro m off k
    rfl
  | cons c t ih =>
    intro m off k
    cases c with
    | Set k' v =>
      rw [replayCmds_set, ih, lastSetOff_set]
      cases h : lastSetOff k (off + cmdLen (Command.Set k' v)) t with
      | some r => cases r <;> rfl
      | none =>
        simp only []
        by_cases hk : k' = k
        · subst hk
          rw [lookupA_insertA]
          simp
        · rw [lookupA_insertA, if_neg hk, if_neg hk]
    | Remove k' =>
      rw [replayCmds_rm, ih, lastSetOff_rm]
      cases h : lastSetOff k (off + cmdLen (Command.Remove k')) t with
      | some r => cases r <;> rfl
      | none =>
        simp only []
        by_cases hk : k' = k
        · subst hk
          rw [lookupA_eraseA]
          simp
        · rw [lookupA_eraseA, if_neg hk, if_neg hk]

theorem lastSetOff_none_iff (k : String) (cmds : List Command) : ∀ off : Nat,
    lastSetOff k off cmds = none ↔ k ∉ cmds.map cmdKey := by
  induction cmds with
  | nil => intro off; simp [lastSetOff]
  | cons c t ih =>
    intro off
    cases c with
    | Set k' v =>
      rw [lastSetOff_set]
      simp only [List.map_cons, List.mem_cons, cmdKey]
      cases h : lastSetOff k (off + cmdLen (Command.Set k' v)) t with
      | some r =>
        have hmem : k ∈ List.map cmdKey t := by
          by_contra hc
          rw [(ih _).mpr hc] at h
          cases h
        constructor
        · intro hh
          exact (Option.noConfusion hh)
        · intro hh
          exact (hh (Or.inr hmem)).elim
      | none =>
        have hmem := (ih _).mp h
        by_cases hk : k' = k
        · subst hk
          simp
        · simp only [if_neg hk]
          constructor
          · intro _
            push_neg
            exact ⟨fun hh => hk hh.symm, hmem⟩
          · intro _
            trivial
    | Remove k' =>
      rw [lastSetOff_rm]
      simp only [List.map_cons, List.mem_cons, cmdKey]
      cases h : lastSetOff k (off + cmdLen (Command.Remove k')) t with
      | some r =>
        have hmem : k ∈ List.map cmdKey t := by
          by_contra hc
          rw [(ih _).mpr hc] at h
          cases h
        constructor
        · intro hh
          exact (Option.noConfusion hh)
        · intro hh
          exact (hh (Or.inr hmem)).elim
      | none =>
        have hmem := (ih _).mp h
        by_cases hk : k' = k
        · subst hk
          simp
        · simp only [if_neg hk]
          constructor
          · intro _
            push_neg
            exact ⟨fun hh => hk hh.symm, hmem⟩
          · intro _
            trivial

theorem lastSetOff_cons (k : String) (off : Nat) (c : Command) (t : List Command) :
    lastSetOff k off (c :: t) =
      (match lastSetOff k (off + cmdLen c) t with
       | some r => some r
       | none =>
         match c with
         | Command.Set k' v => if k' = k then some (some (off, v)) else none
         | Command.Remove k' => if k' = k then some none else none) := by
  cases c <;> rfl

theorem lastCmdFor_cons (c : Command) (t : List Command) (k : String) :
    lastCmdFor (c :: t) k =
      (match lastCmdFor t k with
       | some r => some r
       | none => if cmdKey c = k then some c else none) := rfl

theorem lastSetOff_record (cmds : List Command) : ∀ (off o : Nat) (k v : String),
    lastSetOff k off cmds = some (some (o, v)) →
    off ≤ o ∧ ∃ tl, (encodeLog cmds).drop (o - off) =
      ronToString (Command.Set k v) ++ '\n' :: tl := by
  induction cmds with
  | nil =>
    intro off o k v h
    cases h
  | cons c t ih =>
    intro off o k v h
    rw [lastSetOff_cons] at h
    cases hrest : lastSetOff k (off + cmdLen c) t with
    | some r =>
      rw [hrest] at h
      simp only [] at h
      injection h with h
      subst h
      obtain ⟨hle, tl, htl⟩ := ih _ _ _ _ hrest
      refine ⟨by omega, tl, ?_⟩
      rw [encodeLog_cons_eq]
      have hlen : (ronToString c ++ ['\n']).length = cmdLen c := by
        simp [cmdLen]
      have harith : o - off = (ronToString c ++ ['\n']).length + (o - (off + cmdLen c)) := by
        rw [hlen]
        omega
      rw [harith, List.drop_append]
      exact htl
    | none =>
      rw [hrest] at h
      cases c with
      | Set k' v' =>
        simp only [] at h
        by_cases hk : k' = k
        · rw [if_pos hk] at h
          subst hk
          simp only [Option.some.injEq, Prod.mk.injEq] at h
          obtain ⟨h1, h2⟩ := h
          subst h1
          subst h2
          refine ⟨le_refl _, encodeLog t, ?_⟩
          rw [Nat.sub_self]
          rfl
        · rw [if_neg hk] at h
          cases h
      | Remove k' =>
        simp only [] at h
        by_cases hk : k' = k
        · rw [if_pos hk] at h
          cases h
        · rw [if_neg hk] at h
          cases h

theorem lastSetOff_lastCmdFor (cmds : List Command) : ∀ (off : Nat) (k : String),
    (lastSetOff k off cmds = none → lastCmdFor cmds k = none) ∧
    (lastSetOff k off cmds = some none → lastCmdFor cmds k = some (Command.Remove k)) ∧
    (∀ o v, lastSetOff k off cmds = some (some (o, v)) →
      lastCmdFor cmds k = some (Command.Set k v)) := by
  induction cmds with
  | nil =>
    intro off k
    refine ⟨fun _ => rfl, fun h => ?_, fun o v h => ?_⟩
    · exact Option.noConfusion h
    · exact Option.noConfusion h
  | cons c t ih =>
    intro off k
    have ih' := ih (off + cmdLen c) k
    rw [lastSetOff_cons, lastCmdFor_cons]
    cases hrest : lastSetOff k (off + cmdLen c) t with
    | some r =>
      cases r with
      | none =>
        rw [ih'.2.1 hrest]
        refine ⟨fun h => ?_, fun _ => rfl, fun o v h => ?_⟩
        · exact Option.noConfusion h
        · injection h with h
          exact Option.noConfusion h
      | some p =>
        obtain ⟨o0, v0⟩ := p
        rw [ih'.2.2 o0 v0 hrest]
        refine ⟨fun h => ?_, fun h => ?_, fun o v h => ?_⟩
        · exact Option.noConfusion h
        · injection h with h
          exact Option.noConfusion h
        · simp only [Option.some.injEq, Prod.mk.injEq] at h
          rw [h.2]
    | none =>
      rw [ih'.1 hrest]
      cases c with
      | Set k' v' =>
        by_cases hk : k' = k
        · subst hk
          simp only [cmdKey, eq_self_iff_true, if_true]
          refine ⟨fun h => ?_, fun h => ?_, fun o v h => ?_⟩
          · exact Option.noConfusion h
          · injection h with h
            exact Option.noConfusion h
          · simp only [Option.some.injEq, Prod.mk.injEq] at h
            rw [h.2]
        · simp only [cmdKey, if_neg hk]
          refine ⟨fun _ => trivial, fun h => ?_, fun o v h => ?_⟩
          · exact Option.noConfusion h
          · exact Option.noConfusion h
      | Remove k' =>
        by_cases hk : k' = k
        · subst hk
          simp only [cmdKey, eq_self_iff_true, if_true]
          refine ⟨fun h => ?_, fun _ => trivial, fun o v h => ?_⟩
          · exact Option.noConfusion h
          · injection h with h
            exact Option.noConfusion h
        · simp only [cmdKey, if_neg hk]
          refine ⟨fun _ => trivial, fun h => ?_, fun o v h => ?_⟩
          · exact Option.noConfusion h
          · exact Option.noConfusion h

theorem logValue_eq (cmds : List Command) (k : String) (off : Nat) :
    logValue cmds k =
      (match lastSetOff k off cmds with
       | some (some p) => some p.2
       | _ => none) := by
  cases h : lastSetOff k off cmds with
  | none =>
    have h2 := (lastSetOff_lastCmdFor cmds off k).1 h
    simp only [logValue, h2]
  | some r =>
    cases r with
    | none =>
      have h2 := (lastSetOff_lastCmdFor cmds off k).2.1 h
      simp only [logValue, h2]
    | some p =>
      have h2 := (lastSetOff_lastCmdFor cmds off k).2.2 p.1 p.2 h
      simp only [logValue, h2]

theorem replayCmds_append (xs : List Command) : ∀ (ys : List Command) (m : IndexMap) (off : Nat),
    replayCmds m off (xs ++ ys) =
      replayCmds (replayCmds m off xs) (off + (encodeLog xs).length) ys := by
  induction xs with
  | nil =>
    intro ys m off
    simp [replayCmds, encodeLog]
  | cons c t ih =>
    intro ys m off
    cases c with
    | Set k v =>
      rw [List.cons_append, replayCmds_set, ih, replayCmds_set, encodeLog_cons_length,
        Nat.add_assoc]
    | Remove k =>
      rw [List.cons_append, replayCmds_rm, ih, replayCmds_rm, encodeLog_cons_length,
        Nat.add_assoc]

theorem lastSetOff_append (xs : List Command) : ∀ (ys : List Command) (k : String) (off : Nat),
    lastSetOff k off (xs ++ ys) =
      (match lastSetOff k (off + (encodeLog xs).length) ys with
       | some r => some r
       | none => lastSetOff k off xs) := by
  induction xs with
  | nil =>
    intro ys k off
    rw [show encodeLog [] = [] from rfl]
    simp only [List.length_nil, Nat.add_zero, List.nil_append]
    cases h : lastSetOff k off ys <;> rfl
  | cons c t ih =>
    intro ys k off
    rw [List.cons_append, lastSetOff_cons, ih, lastSetOff_cons, encodeLog_cons_length]
    rw [show off + (cmdLen c + (encodeLog t).length) = off + cmdLen c + (encodeLog t).length
      from by omega]
    cases hys : lastSetOff k (off + cmdLen c + (encodeLog t).length) ys with
    | some r => rfl
    | none =>
      cases ht : lastSetOff k (off + cmdLen c) t <;> rfl

theorem NodupKeys_replayCmds (cmds : List Command) : ∀ (m : IndexMap) (off : Nat),
    NodupKeys m → NodupKeys (replayCmds m off cmds) := by
  induction cmds with
  | nil => intro m off h; exact h
  | cons c t ih =>
    intro m off h
    cases c with
    | Set k v => exact ih _ _ (NodupKeys_insertA m k off h)
    | Remove k => exact ih _ _ (NodupKeys_eraseA m k h)

theorem mem_keysOf_insertA (m : IndexMap) (k : String) (v : Nat) (q : String) :
    q ∈ keysOf (insertA m k v) ↔ q = k ∨ q ∈ keysOf m := by
  simp only [insertA, keysOf, List.map_cons, List.mem_cons]
  constructor
  · rintro (h | h)
    · exact Or.inl h
    · exact Or.inr ((mem_keysOf_eraseA m k q).mp h).1
  · rintro (h | h)
    · exact Or.inl h
    · by_cases hq : q = k
      · exact Or.inl hq
      · exact Or.inr ((mem_keysOf_eraseA m k q).mpr ⟨h, hq⟩)

theorem mem_keysOf_replayCmds (cmds : List Command) : ∀ (m : IndexMap) (off : Nat) (q : String),
    q ∈ keysOf (replayCmds m off cmds) → q ∈ keysOf m ∨ q ∈ cmds.map cmdKey := by
  induction cmds with
  | nil => intro m off q h; exact Or.inl h
  | cons c t ih =>
    intro m off q h
    cases c with
    | Set k v =>
      rw [replayCmds_set] at h
      rcases ih _ _ _ h with hm | hm
      · rcases (mem_keysOf_insertA m k off q).mp hm with hq | hq
        · exact Or.inr (by simp [cmdKey, hq])
        · exact Or.inl hq
      · exact Or.inr (List.mem_cons_of_mem _ hm)
    | Remove k =>
      rw [replayCmds_rm] at h
      rcases ih _ _ _ h with hm | hm
      · exact Or.inl ((mem_keysOf_eraseA m k q).mp hm).1
      · exact Or.inr (List.mem_cons_of_mem _ hm)

theorem replayCmds_untouched (cmds : List Command) (m : IndexMap)
    (h : ∀ k ∈ keysOf m, k ∈ cmds.map cmdKey) (k : String) :
    lookupA (replayCmds m 0 cmds) k = lookupA (semMap cmds) k := by
  rw [replayCmds_lookup, semMap, replayCmds_lookup]
  cases hl : lastSetOff k 0 cmds with
  | some r => cases r <;> rfl
  | none =>
    have hk : k ∉ cmds.map cmdKey := (lastSetOff_none_iff k cmds 0).mp hl
    have hm : k ∉ keysOf m := fun hmem => hk (h k hmem)
    rw [lookupA_none_of_not_mem m k hm]
    rfl

/-! ## Lemmas: fetching one record -/

theorem ronToString_ne_nil (c : Command) : ronToString c ≠ [] := by
  cases c <;> simp [ronToString]

theorem fetch_value_at_record (file : List Char) (o : Nat) (k v : String) (tl : List Char)
    (h : file.drop o = ronToString (Command.Set k v) ++ '\n' :: tl) :
    fetch_value file o = Except.ok v := by
  rw [fetch_value, h, takeLine_append_newline _ _ (ronToString_no_newline _),
    parseCommand_ron_nl]

theorem fetchSet?_at_record (file : List Char) (o : Nat) (k v : String) (tl : List Char)
    (h : file.drop o = ronToString (Command.Set k v) ++ '\n' :: tl) :
    fetchSet? file o = some v := by
  rw [fetchSet?, h, takeLine_append_newline _ _ (ronToString_no_newline _),
    parseCommand_ron_nl]

theorem drop_record_append (file X : List Char) (o : Nat) (k v : String) (tl : List Char)
    (h : file.drop o = ronToString (Command.Set k v) ++ '\n' :: tl) :
    (file ++ X).drop o = ronToString (Command.Set k v) ++ '\n' :: (tl ++ X) := by
  have ho : o ≤ file.length := by
    by_contra hc
    push_neg at hc
    rw [List.drop_eq_nil_of_le (le_of_lt hc)] at h
    exact absurd h.symm (by simp [ronToString_ne_nil])
  rw [List.drop_append_of_le_length ho, h]
  simp

/-! ## Lemmas: building the index -/

theorem build_map_built (s : KvStore) (h : s.is_build = true) :
    KvStore.build_map s = (Except.ok (), s) := by
  simp [KvStore.build_map, h]

theorem build_map_file (s : KvStore) :
    ((KvStore.build_map s).2).file_handle = s.file_handle := by
  rw [KvStore.build_map]
  by_cases h : s.is_build
  · simp [h]
  · simp only [h, if_false, Bool.false_eq_true]
    cases hb : buildLoop s.file_handle 0 s.map with
    | mk r m => cases r <;> rfl

theorem build_map_count (s : KvStore) :
    ((KvStore.build_map s).2).count_of_set = s.count_of_set := by
  rw [KvStore.build_map]
  by_cases h : s.is_build
  · simp [h]
  · simp only [h, if_false, Bool.false_eq_true]
    cases hb : buildLoop s.file_handle 0 s.map with
    | mk r m => cases r <;> rfl

theorem build_map_encodeLog (s : KvStore) (cmds : List Command)
    (hf : s.file_handle = encodeLog cmds) (hb : s.is_build = false) :
    KvStore.build_map s =
      (Except.ok (), { s with map := replayCmds s.map 0 cmds, is_build := true }) := by
  rw [KvStore.build_map]
  simp only [hb, if_false, Bool.false_eq_true]
  rw [hf, buildLoop_encodeLog]

theorem build_map_spec (s : KvStore) (cmds : List Command)
    (hn : NodupKeys s.map) (hf : s.file_handle = encodeLog cmds)
    (hb : s.is_build = true → ∀ q, lookupA s.map q = lookupA (semMap cmds) q)
    (hu : s.is_build = false → ∀ q ∈ keysOf s.map, q ∈ cmds.map cmdKey) :
    (KvStore.build_map s).1 = Except.ok () ∧
    ((KvStore.build_map s).2).file_handle = s.file_handle ∧
    ((KvStore.build_map s).2).count_of_set = s.count_of_set ∧
    ((KvStore.build_map s).2).is_build = true ∧
    NodupKeys ((KvStore.build_map s).2).map ∧
    (∀ q, lookupA ((KvStore.build_map s).2).map q = lookupA (semMap cmds) q) := by
  by_cases h : s.is_build = true
  · rw [build_map_built s h]
    exact ⟨rfl, rfl, rfl, h, hn, hb h⟩
  · have h' : s.is_build = false := by
      cases hsb : s.is_build
      · rfl
      · exact absurd hsb h
    rw [build_map_encodeLog s cmds hf h']
    refine ⟨rfl, rfl, rfl, rfl, ?_, ?_⟩
    · exact NodupKeys_replayCmds cmds s.map 0 hn
    · intro q
      exact replayCmds_untouched cmds s.map (hu h') q

/-! ## Lemmas: the semantic map against the log -/

theorem semMap_fetch (cmds : List Command) (k : String) (o : Nat)
    (h : lookupA (semMap cmds) k = some o) :
    ∃ v, fetch_value (encodeLog cmds) o = Except.ok v ∧ logValue cmds k = some v ∧
      fetchSet? (encodeLog cmds) o = some v ∧
      ∃ tl, (encodeLog cmds).drop o = ronToString (Command.Set k v) ++ '\n' :: tl := by
  rw [semMap, replayCmds_lookup] at h
  cases hl : lastSetOff k 0 cmds with
  | none =>
    rw [hl] at h
    simp [lookupA] at h
  | some r =>
    cases r with
    | none =>
      rw [hl] at h
      cases h
    | some p =>
      obtain ⟨o0, v⟩ := p
      rw [hl] at h
      simp only [] at h
      injection h with h
      subst h
      obtain ⟨hle, tl, htl⟩ := lastSetOff_record cmds 0 o0 k v hl
      rw [Nat.sub_zero] at htl
      refine ⟨v, fetch_value_at_record _ _ _ _ _ htl, ?_,
        fetchSet?_at_record _ _ _ _ _ htl, tl, htl⟩
      rw [logValue_eq cmds k 0, hl]

theorem semMap_none (cmds : List Command) (k : String)
    (h : lookupA (semMap cmds) k = none) : logValue cmds k = none := by
  rw [semMap, replayCmds_lookup] at h
  rw [logValue_eq cmds k 0]
  cases hl : lastSetOff k 0 cmds with
  | none => rfl
  | some r =>
    cases r with
    | none => rfl
    | some p =>
      rw [hl] at h
      cases h

theorem NodupKeys_semMap (cmds : List Command) : NodupKeys (semMap cmds) :=
  NodupKeys_replayCmds cmds [] 0 (by simp [NodupKeys, keysOf])

/-! ## Lemmas: `get` -/

theorem get_spec (s : KvStore) (cmds : List Command) (k : String)
    (hn : NodupKeys s.map) (hf : s.file_handle = encodeLog cmds)
    (hb : s.is_build = true → ∀ q, lookupA s.map q = lookupA (semMap cmds) q)
    (hu : s.is_build = false → ∀ q ∈ keysOf s.map, q ∈ cmds.map cmdKey) :
    KvStore.get s k = (Except.ok (logValue cmds k), (KvStore.build_map s).2) := by
  obtain ⟨h1, h2, h3, h4, h5, h6⟩ := build_map_spec s cmds hn hf hb hu
  have hbm : KvStore.build_map s = (Except.ok (), (KvStore.build_map s).2) := by
    rw [show KvStore.build_map s =
      ((KvStore.build_map s).1, (KvStore.build_map s).2) from rfl, h1]
  rw [KvStore.get, hbm]
  simp only []
  cases hl : lookupA ((KvStore.build_map s).2).map k with
  | none =>
    have : lookupA (semMap cmds) k = none := by rw [← h6 k, hl]
    rw [semMap_none cmds k this]
  | some o =>
    have hsem : lookupA (semMap cmds) k = some o := by rw [← h6 k, hl]
    obtain ⟨v, hfv, hlv, _, _⟩ := semMap_fetch cmds k o hsem
    have hfile : ((KvStore.build_map s).2).file_handle = encodeLog cmds := by rw [h2, hf]
    simp only [hfile, hfv, hlv]

/-! ## Lemmas: compaction -/

theorem fetchSet?_of_fetch_value (file : List Char) (off : Nat) (v : String)
    (h : fetch_value file off = Except.ok v) : fetchSet? file off = some v := by
  rw [fetch_value] at h
  rw [fetchSet?]
  cases hp : parseCommand (takeLine (file.drop off)) with
  | none =>
    rw [hp] at h
    cases h
  | some c =>
    rw [hp] at h
    cases c with
    | Set k w =>
      simp only [] at h ⊢
      injection h with h
      rw [h]
    | Remove k =>
      cases h

theorem mem_eraseA_subset (m : IndexMap) (k : String) (p : String × Nat)
    (h : p ∈ eraseA m k) : p ∈ m := by
  induction m with
  | nil => exact h
  | cons q t ih =>
    obtain ⟨k', v'⟩ := q
    by_cases hk : k' = k
    · subst hk
      rw [eraseA_cons_self] at h
      exact List.mem_cons_of_mem _ (ih h)
    · rw [eraseA_cons_ne k' k v' t hk] at h
      rcases List.mem_cons.mp h with hh | hh
      · exact hh ▸ List.mem_cons_self _ _
      · exact List.mem_cons_of_mem _ (ih hh)

theorem sum_eraseA_le (f : String × Nat → Nat) (m : IndexMap) (k : String) :
    ((eraseA m k).map f).sum ≤ (m.map f).sum := by
  induction m with
  | nil => exact Nat.le_refl _
  | cons q t ih =>
    obtain ⟨k', v'⟩ := q
    by_cases hk : k' = k
    · subst hk
      rw [eraseA_cons_self]
      calc ((eraseA t k').map f).sum ≤ (t.map f).sum := ih
        _ ≤ f (k', v') + (t.map f).sum := Nat.le_add_left _ _
        _ = (((k', v') :: t).map f).sum := by simp
    · rw [eraseA_cons_ne k' k v' t hk]
      simp only [List.map_cons, List.sum_cons]
      exact Nat.add_le_add_left ih _

theorem compactData_ok (file : List Char) (m : IndexMap)
    (h : ∀ p ∈ m, ∃ vp, fetch_value file p.2 = Except.ok vp) :
    compactData file m = Except.ok (encodeLog (compactCmds file m)) := by
  induction m with
  | nil => rfl
  | cons p t ih =>
    obtain ⟨k, off⟩ := p
    obtain ⟨vp, hvp⟩ := h (k, off) (List.mem_cons_self _ _)
    have hfs : fetchSet? file off = some vp := fetchSet?_of_fetch_value file off vp hvp
    rw [show compactData file ((k, off) :: t) =
      (match fetch_value file off with
       | Except.error e => Except.error e
       | Except.ok v => (compactData file t).map
           (fun d => (ronToString (Command.Set k v) ++ ['\n']) ++ d)) from rfl]
    rw [hvp, ih (fun q hq => h q (List.mem_cons_of_mem _ hq))]
    rw [show compactCmds file ((k, off) :: t) =
      Command.Set k ((fetchSet? file off).getD "") :: compactCmds file t from rfl]
    rw [hfs]
    simp [Except.map, encodeLog_cons_eq]

theorem compactCmds_keys (file : List Char) (m : IndexMap) :
    (compactCmds file m).map cmdKey = keysOf m := by
  induction m with
  | nil => rfl
  | cons p t ih =>
    obtain ⟨k, off⟩ := p
    simp only [compactCmds, List.map_cons, List.map_map] at *
    rw [show cmdKey (Command.Set k ((fetchSet? file off).getD "")) = k from rfl]
    simp only [keysOf, List.map_cons]
    rw [show keysOf t = t.map Prod.fst from rfl] at ih
    rw [ih]

theorem lastCmdFor_setList (m : IndexMap) (f : String × Nat → String) :
    ∀ (q : String), NodupKeys m →
    lastCmdFor (m.map (fun p => Command.Set p.1 (f p))) q =
      (match lookupA m q with
       | some o => some (Command.Set q (f (q, o)))
       | none => none) := by
  induction m with
  | nil => intro q _; rfl
  | cons p t ih =>
    intro q hn
    obtain ⟨k, o⟩ := p
    simp only [NodupKeys, keysOf, List.map_cons, List.nodup_cons] at hn
    rw [List.map_cons, lastCmdFor_cons, ih q hn.2]
    by_cases hq : q = k
    · subst hq
      have hnone : lookupA t q = none :=
        lookupA_none_of_not_mem t q (by simpa [keysOf] using hn.1)
      rw [hnone, lookupA_cons_self]
      simp [cmdKey]
    · rw [lookupA_cons_ne k q o t (fun hh => hq hh.symm)]
      cases hl : lookupA t q with
      | none =>
        simp only [cmdKey]
        rw [if_neg (fun hh : k = q => hq hh.symm)]
      | some o' => rfl

theorem logValue_setList (m : IndexMap) (f : String × Nat → String) (q : String)
    (hn : NodupKeys m) :
    logValue (m.map (fun p => Command.Set p.1 (f p))) q =
      (match lookupA m q with
       | some o => some (f (q, o))
       | none => none) := by
  rw [logValue, lastCmdFor_setList m f q hn]
  cases hl : lookupA m q <;> rfl

theorem encodeLog_length_sum (cmds : List Command) :
    (encodeLog cmds).length = (cmds.map cmdLen).sum := by
  induction cmds with
  | nil => rfl
  | cons c t ih =>
    rw [encodeLog_cons_length, ih, List.map_cons, List.sum_cons]

theorem fetchSet?_append (file X : List Char) (o : Nat) (k v : String) (tl : List Char)
    (h : file.drop o = ronToString (Command.Set k v) ++ '\n' :: tl) :
    fetchSet? (file ++ X) o = fetchSet? file o := by
  rw [fetchSet?_at_record file o k v tl h,
    fetchSet?_at_record (file ++ X) o k v (tl ++ X) (drop_record_append file X o k v tl h)]

theorem semMap_entry_record (cmds : List Command) (p : String × Nat) (hp : p ∈ semMap cmds) :
    ∃ v tl, (encodeLog cmds).drop p.2 = ronToString (Command.Set p.1 v) ++ '\n' :: tl := by
  have hl : lookupA (semMap cmds) p.1 = some p.2 :=
    lookupA_entry _ p (NodupKeys_semMap cmds) hp
  obtain ⟨v, _, _, _, tl, htl⟩ := semMap_fetch cmds p.1 p.2 hl
  exact ⟨v, tl, htl⟩

theorem semMap_append_set (cmds : List Command) (k v : String) :
    semMap (cmds ++ [Command.Set k v]) =
      insertA (semMap cmds) k (encodeLog cmds).length := by
  rw [semMap, replayCmds_append, Nat.zero_add]
  rfl

theorem semMap_append_rm (cmds : List Command) (k : String) :
    semMap (cmds ++ [Command.Remove k]) = eraseA (semMap cmds) k := by
  rw [semMap, replayCmds_append, Nat.zero_add]
  rfl

theorem compactCmds_length (file : List Char) (m : IndexMap) :
    (encodeLog (compactCmds file m)).length =
      (m.map (fun p => cmdLen (Command.Set p.1 ((fetchSet? file p.2).getD "")))).sum := by
  rw [encodeLog_length_sum, compactCmds, List.map_map]
  rfl

theorem compact_size_semMap (cmds : List Command) :
    ((semMap cmds).map (fun p =>
       cmdLen (Command.Set p.1 ((fetchSet? (encodeLog cmds) p.2).getD "")))).sum ≤
      (encodeLog cmds).length := by
  induction cmds using List.reverseRecOn with
  | nil => exact Nat.le_refl _
  | append_singleton cmds c ih =>
    have hstable : ∀ p ∈ semMap cmds,
        fetchSet? (encodeLog (cmds ++ [c])) p.2 = fetchSet? (encodeLog cmds) p.2 := by
      intro p hp
      obtain ⟨v, tl, htl⟩ := semMap_entry_record cmds p hp
      rw [encodeLog_append]
      exact fetchSet?_append (encodeLog cmds) (encodeLog [c]) p.2 p.1 v tl htl
    have hlen : (encodeLog (cmds ++ [c])).length = (encodeLog cmds).length + cmdLen c := by
      rw [encodeLog_append, List.length_append, encodeLog_cons_length]
      rw [show (encodeLog ([] : List Command)).length = 0 from rfl]
      omega
    have herase : ∀ k : String,
        ((eraseA (semMap cmds) k).map (fun p =>
          cmdLen (Command.Set p.1 ((fetchSet? (encodeLog (cmds ++ [c])) p.2).getD "")))).sum ≤
        (encodeLog cmds).length := by
      intro k
      have hcongr : (eraseA (semMap cmds) k).map (fun p =>
          cmdLen (Command.Set p.1 ((fetchSet? (encodeLog (cmds ++ [c])) p.2).getD ""))) =
          (eraseA (semMap cmds) k).map (fun p =>
          cmdLen (Command.Set p.1 ((fetchSet? (encodeLog cmds) p.2).getD ""))) := by
        refine List.map_congr_left ?_
        intro p hp
        rw [hstable p (mem_eraseA_subset _ k p hp)]
      rw [hcongr]
      exact Nat.le_trans (sum_eraseA_le _ (semMap cmds) k) ih
    cases c with
    | Set k v =>
      rw [semMap_append_set]
      have hhead : fetchSet? (encodeLog (cmds ++ [Command.Set k v]))
          (encodeLog cmds).length = some v := by
        rw [encodeLog_append]
        refine fetchSet?_at_record _ _ k v (encodeLog ([] : List Command)) ?_
        rw [List.drop_left]
        rfl
      rw [show insertA (semMap cmds) k (encodeLog cmds).length =
        (k, (encodeLog cmds).length) :: eraseA (semMap cmds) k from rfl]
      rw [List.map_cons, List.sum_cons, hhead]
      have h1 := herase k
      rw [hlen]
      have hcl : cmdLen (Command.Set k ((some v).getD "")) =
          cmdLen (Command.Set k v) := rfl
      rw [hcl]
      omega
    | Remove k =>
      rw [semMap_append_rm]
      refine Nat.le_trans (herase k) ?_
      rw [hlen]
      omega

theorem compact_size (cmds : List Command) (m : IndexMap) (hn : NodupKeys m)
    (hl : ∀ q, lookupA m q = lookupA (semMap cmds) q) :
    (encodeLog (compactCmds (encodeLog cmds) m)).length ≤ (encodeLog cmds).length := by
  rw [compactCmds_length]
  have hperm : m.Perm (semMap cmds) :=
    perm_of_lookupA_eq m (semMap cmds) hn (NodupKeys_semMap cmds) hl
  rw [(hperm.map (fun p =>
    cmdLen (Command.Set p.1 ((fetchSet? (encodeLog cmds) p.2).getD "")))).sum_eq]
  exact compact_size_semMap cmds

theorem compactCmds_logValue (cmds : List Command) (m : IndexMap) (hn : NodupKeys m)
    (hl : ∀ q, lookupA m q = lookupA (semMap cmds) q) (q : String) :
    logValue (compactCmds (encodeLog cmds) m) q = logValue cmds q := by
  rw [show compactCmds (encodeLog cmds) m =
    m.map (fun p => Command.Set p.1 ((fetchSet? (encodeLog cmds) p.2).getD "")) from rfl]
  rw [logValue_setList m _ q hn, hl q]
  cases hsl : lookupA (semMap cmds) q with
  | none =>
    rw [semMap_none cmds q hsl]
  | some o =>
    obtain ⟨v, _, hlv, hfs, _⟩ := semMap_fetch cmds q o hsl
    simp only [hfs, hlv]
    rfl

theorem map_fetch_ok (cmds : List Command) (m : IndexMap) (hn : NodupKeys m)
    (hl : ∀ q, lookupA m q = lookupA (semMap cmds) q) :
    ∀ p ∈ m, ∃ vp, fetch_value (encodeLog cmds) p.2 = Except.ok vp := by
  intro p hp
  have hlk : lookupA m p.1 = some p.2 := lookupA_entry m p hn hp
  rw [hl p.1] at hlk
  obtain ⟨v, hfv, _, _, _⟩ := semMap_fetch cmds p.1 p.2 hlk
  exact ⟨v, hfv⟩

theorem compaction_spec (s : KvStore) (cmds : List Command)
    (hn : NodupKeys s.map) (hf : s.file_handle = encodeLog cmds)
    (hb : s.is_build = true → ∀ q, lookupA s.map q = lookupA (semMap cmds) q)
    (hu : s.is_build = false → ∀ q ∈ keysOf s.map, q ∈ cmds.map cmdKey) :
    ∃ s' : KvStore,
      KvStore.compaction s = (Except.ok (), s') ∧
      ∃ cmds' : List Command,
        s'.file_handle = encodeLog cmds' ∧
        s'.is_build = false ∧
        s'.map = ((KvStore.build_map s).2).map ∧
        s'.count_of_set = s.count_of_set ∧
        NodupKeys s'.map ∧
        (∀ q ∈ keysOf s'.map, q ∈ cmds'.map cmdKey) ∧
        (∀ q, logValue cmds' q = logValue cmds q) ∧
        s'.file_handle.length ≤ s.file_handle.length := by
  obtain ⟨h1, h2, h3, h4, h5, h6⟩ := build_map_spec s cmds hn hf hb hu
  have hbm : KvStore.build_map s = (Except.ok (), (KvStore.build_map s).2) := by
    rw [show KvStore.build_map s =
      ((KvStore.build_map s).1, (KvStore.build_map s).2) from rfl, h1]
  have hcd : compactData ((KvStore.build_map s).2).file_handle ((KvStore.build_map s).2).map =
      Except.ok (encodeLog (compactCmds (encodeLog cmds) ((KvStore.build_map s).2).map)) := by
    rw [h2, hf]
    exact compactData_ok _ _ (map_fetch_ok cmds _ h5 h6)
  rw [KvStore.compaction, hbm]
  simp only [hcd]
  refine ⟨_, rfl, compactCmds (encodeLog cmds) ((KvStore.build_map s).2).map,
    rfl, rfl, rfl, h3, h5, ?_, ?_, ?_⟩
  · intro q hq
    rw [compactCmds_keys]
    exact hq
  · exact compactCmds_logValue cmds _ h5 h6
  · rw [hf]
    exact compact_size cmds _ h5 h6

/-! ## Lemmas: `set` and `remove` -/

theorem set_unfold (s : KvStore) (k v : String) :
    KvStore.set s k v =
      (if s.count_of_set + 1 > 100 then
        match KvStore.compaction
          { file_handle := s.file_handle ++ (ronToString (Command.Set k v) ++ ['\n'])
            map := insertA s.map k s.file_handle.length
            is_build := s.is_build
            count_of_set := s.count_of_set + 1 } with
        | (Except.ok _, s2) => (Except.ok (), { s2 with count_of_set := 0 })
        | (Except.error e, s2) => (Except.error e, s2)
      else
        (Except.ok (),
          { file_handle := s.file_handle ++ (ronToString (Command.Set k v) ++ ['\n'])
            map := insertA s.map k s.file_handle.length
            is_build := s.is_build
            count_of_set := s.count_of_set + 1 })) := rfl

theorem lastCmdFor_append (xs : List Command) : ∀ (ys : List Command) (q : String),
    lastCmdFor (xs ++ ys) q =
      (match lastCmdFor ys q with
       | some r => some r
       | none => lastCmdFor xs q) := by
  induction xs with
  | nil =>
    intro ys q
    rw [List.nil_append]
    cases h : lastCmdFor ys q <;> rfl
  | cons c t ih =>
    intro ys q
    rw [List.cons_append, lastCmdFor_cons, ih, lastCmdFor_cons]
    cases hys : lastCmdFor ys q with
    | some r => rfl
    | none => cases ht : lastCmdFor t q <;> rfl

theorem logValue_append_set (cmds : List Command) (k v q : String) :
    logValue (cmds ++ [Command.Set k v]) q = if q = k then some v else logValue cmds q := by
  rw [logValue, lastCmdFor_append]
  by_cases hq : q = k
  · subst hq
    rw [show lastCmdFor [Command.Set q v] q = some (Command.Set q v) from by
      simp [lastCmdFor, cmdKey]]
    simp
  · have hkq : k ≠ q := fun hh => hq hh.symm
    rw [show lastCmdFor [Command.Set k v] q = none from by
      simp [lastCmdFor, cmdKey, hkq]]
    rw [if_neg hq, logValue]

theorem logValue_append_rm (cmds : List Command) (k q : String) :
    logValue (cmds ++ [Command.Remove k]) q = if q = k then none else logValue cmds q := by
  rw [logValue, lastCmdFor_append]
  by_cases hq : q = k
  · subst hq
    rw [show lastCmdFor [Command.Remove q] q = some (Command.Remove q) from by
      simp [lastCmdFor, cmdKey]]
    simp
  · have hkq : k ≠ q := fun hh => hq hh.symm
    rw [show lastCmdFor [Command.Remove k] q = none from by
      simp [lastCmdFor, cmdKey, hkq]]
    rw [if_neg hq, logValue]

theorem set_spec (s : KvStore) (cmds : List Command) (k v : String)
    (hn : NodupKeys s.map) (hf : s.file_handle = encodeLog cmds)
    (hb : s.is_build = true → ∀ q, lookupA s.map q = lookupA (semMap cmds) q)
    (hu : s.is_build = false → ∀ q ∈ keysOf s.map, q ∈ cmds.map cmdKey) :
    ∃ s' : KvStore, KvStore.set s k v = (Except.ok (), s') ∧
      ∃ cmds' : List Command,
        s'.file_handle = encodeLog cmds' ∧
        NodupKeys s'.map ∧
        (s'.is_build = true → ∀ q, lookupA s'.map q = lookupA (semMap cmds') q) ∧
        (s'.is_build = false → ∀ q ∈ keysOf s'.map, q ∈ cmds'.map cmdKey) ∧
        (∀ q, logValue cmds' q = if q = k then some v else logValue cmds q) ∧
        s'.count_of_set = (if s.count_of_set + 1 > 100 then 0 else s.count_of_set + 1) := by
  set s1 : KvStore :=
    { file_handle := s.file_handle ++ (ronToString (Command.Set k v) ++ ['\n'])
      map := insertA s.map k s.file_handle.length
      is_build := s.is_build
      count_of_set := s.count_of_set + 1 } with hs1
  have hf1 : s1.file_handle = encodeLog (cmds ++ [Command.Set k v]) := by
    rw [hs1, encodeLog_append, hf]
    rfl
  have hn1 : NodupKeys s1.map := NodupKeys_insertA _ _ _ hn
  have hb1 : s1.is_build = true →
      ∀ q, lookupA s1.map q = lookupA (semMap (cmds ++ [Command.Set k v])) q := by
    intro h q
    rw [semMap_append_set]
    rw [show s1.map = insertA s.map k s.file_handle.length from rfl]
    rw [lookupA_insertA, lookupA_insertA, hf]
    by_cases hq : k = q
    · simp [hq]
    · rw [if_neg hq, if_neg hq]
      exact hb h q
  have hu1 : s1.is_build = false →
      ∀ q ∈ keysOf s1.map, q ∈ (cmds ++ [Command.Set k v]).map cmdKey := by
    intro h q hq
    rw [List.map_append, List.mem_append]
    rcases (mem_keysOf_insertA s.map k _ q).mp hq with h' | h'
    · right
      simp [h', cmdKey]
    · left
      exact hu h q h'
  have hlog : ∀ q, logValue (cmds ++ [Command.Set k v]) q =
      if q = k then some v else logValue cmds q := fun q => logValue_append_set cmds k v q
  by_cases hc : s.count_of_set + 1 > 100
  · obtain ⟨s2, hcomp, cmds2, hfile2, hbuild2, _, hcount2, hnodup2, hkeys2, hlog2, _⟩ :=
      compaction_spec s1 (cmds ++ [Command.Set k v]) hn1 hf1 hb1 hu1
    refine ⟨{ s2 with count_of_set := 0 }, ?_, cmds2, hfile2, hnodup2, ?_, ?_, ?_, ?_⟩
    · rw [set_unfold, if_pos hc, ← hs1, hcomp]
    · intro h
      rw [show ({ s2 with count_of_set := 0 } : KvStore).is_build = s2.is_build from rfl] at h
      rw [hbuild2] at h
      cases h
    · intro _ q hq
      exact hkeys2 q hq
    · intro q
      rw [hlog2 q, hlog q]
    · rw [if_pos hc]
  · refine ⟨s1, ?_, cmds ++ [Command.Set k v], hf1, hn1, hb1, hu1, hlog, ?_⟩
    · rw [set_unfold, if_neg hc, ← hs1]
    · rw [if_neg hc]

theorem get_built_none (s : KvStore) (k : String) (hb : s.is_build = true)
    (hl : lookupA s.map k = none) : KvStore.get s k = (Except.ok none, s) := by
  rw [KvStore.get, build_map_built s hb]
  simp only [hl]

theorem remove_spec (s : KvStore) (cmds : List Command) (k : String)
    (hn : NodupKeys s.map) (hf : s.file_handle = encodeLog cmds)
    (hb : s.is_build = true → ∀ q, lookupA s.map q = lookupA (semMap cmds) q)
    (hu : s.is_build = false → ∀ q ∈ keysOf s.map, q ∈ cmds.map cmdKey) :
    (logValue cmds k = none →
       KvStore.remove s k = (Except.error (KvStoreError.KeyNotFound k),
         (KvStore.build_map s).2)) ∧
    (∀ v, logValue cmds k = some v →
       ∃ s' : KvStore, KvStore.remove s k = (Except.ok (), s') ∧
         s'.file_handle = encodeLog (cmds ++ [Command.Remove k]) ∧
         s'.is_build = true ∧
         NodupKeys s'.map ∧
         (∀ q, lookupA s'.map q = lookupA (semMap (cmds ++ [Command.Remove k])) q) ∧
         s'.count_of_set = s.count_of_set ∧
         lookupA s'.map k = none) := by
  obtain ⟨h1, h2, h3, h4, h5, h6⟩ := build_map_spec s cmds hn hf hb hu
  have hbm : KvStore.build_map s = (Except.ok (), (KvStore.build_map s).2) := by
    rw [show KvStore.build_map s =
      ((KvStore.build_map s).1, (KvStore.build_map s).2) from rfl, h1]
  constructor
  · intro habs
    have hlk : lookupA ((KvStore.build_map s).2).map k = none := by
      rw [h6 k]
      cases hsl : lookupA (semMap cmds) k with
      | none => rfl
      | some o =>
        obtain ⟨v, _, hlv, _, _⟩ := semMap_fetch cmds k o hsl
        rw [habs] at hlv
        cases hlv
    rw [KvStore.remove, hbm]
    simp only [hlk, Option.isSome_none, Bool.false_eq_true, if_false]
  · intro v hv
    have hlk : ∃ o, lookupA ((KvStore.build_map s).2).map k = some o := by
      rw [h6 k]
      cases hsl : lookupA (semMap cmds) k with
      | none =>
        rw [semMap_none cmds k hsl] at hv
        cases hv
      | some o => exact ⟨o, rfl⟩
    obtain ⟨o, ho⟩ := hlk
    rw [KvStore.remove, hbm]
    simp only [ho, Option.isSome_some, if_true]
    refine ⟨_, rfl, ?_, h4, ?_, ?_, h3, ?_⟩
    · rw [show ({ (KvStore.build_map s).2 with
        file_handle := ((KvStore.build_map s).2).file_handle ++
          (ronToString (Command.Remove k) ++ ['\n'])
        map := eraseA ((KvStore.build_map s).2).map k } : KvStore).file_handle =
          ((KvStore.build_map s).2).file_handle ++
            (ronToString (Command.Remove k) ++ ['\n']) from rfl]
      rw [h2, hf, encodeLog_append]
      rfl
    · exact NodupKeys_eraseA _ k h5
    · intro q
      rw [semMap_append_rm]
      rw [show ({ (KvStore.build_map s).2 with
        file_handle := ((KvStore.build_map s).2).file_handle ++
          (ronToString (Command.Remove k) ++ ['\n'])
        map := eraseA ((KvStore.build_map s).2).map k } : KvStore).map =
          eraseA ((KvStore.build_map s).2).map k from rfl]
      rw [lookupA_eraseA, lookupA_eraseA]
      by_cases hq : k = q
      · simp [hq]
      · rw [if_neg hq, if_neg hq]
        exact h6 q
    · rw [show ({ (KvStore.build_map s).2 with
        file_handle := ((KvStore.build_map s).2).file_handle ++
          (ronToString (Command.Remove k) ++ ['\n'])
        map := eraseA ((KvStore.build_map s).2).map k } : KvStore).map =
          eraseA ((KvStore.build_map s).2).map k from rfl]
      rw [lookupA_eraseA]
      simp

/-! ## Lemmas: the store invariant along the API -/

theorem storeInv_openDir (cmds : List Command) :
    StoreInv (openDir (some (encodeLog cmds))) := by
  refine ⟨?_, cmds, rfl, ?_, ?_⟩
  · simp [NodupKeys, keysOf, openDir]
  · intro h
    cases h
  · intro _ q hq
    simp [openDir, keysOf] at hq

theorem storeInv_build (s : KvStore) (h : StoreInv s) :
    StoreInv (KvStore.build_map s).2 := by
  obtain ⟨hn, cmds, hf, hb, hu⟩ := h
  obtain ⟨_, h2, _, h4, h5, h6⟩ := build_map_spec s cmds hn hf hb hu
  refine ⟨h5, cmds, by rw [h2, hf], fun _ => h6, fun hfalse => ?_⟩
  rw [h4] at hfalse
  cases hfalse

theorem storeInv_get (s : KvStore) (k : String) (h : StoreInv s) :
    StoreInv (KvStore.get s k).2 := by
  obtain ⟨hn, cmds, hf, hb, hu⟩ := h
  have hget := get_spec s cmds k hn hf hb hu
  rw [show (KvStore.get s k).2 =
    ((Except.ok (logValue cmds k) : Except KvStoreError (Option String)),
      (KvStore.build_map s).2).2 from by rw [hget]]
  exact storeInv_build s ⟨hn, cmds, hf, hb, hu⟩

theorem storeInv_set (s : KvStore) (k v : String) (h : StoreInv s) :
    StoreInv (KvStore.set s k v).2 := by
  obtain ⟨hn, cmds, hf, hb, hu⟩ := h
  obtain ⟨s', hset, cmds', hfile, hnodup, hb', hu', _, _⟩ :=
    set_spec s cmds k v hn hf hb hu
  rw [hset]
  exact ⟨hnodup, cmds', hfile, hb', hu'⟩

theorem storeInv_remove (s : KvStore) (k : String) (h : StoreInv s) :
    StoreInv (KvStore.remove s k).2 := by
  obtain ⟨hn, cmds, hf, hb, hu⟩ := h
  obtain ⟨habs, hpres⟩ := remove_spec s cmds k hn hf hb hu
  cases hlv : logValue cmds k with
  | none =>
    rw [habs hlv]
    exact storeInv_build s ⟨hn, cmds, hf, hb, hu⟩
  | some v =>
    obtain ⟨s', hrm, hfile, hbuild, hnodup, hlook, _, _⟩ := hpres v hlv
    rw [hrm]
    refine ⟨hnodup, cmds ++ [Command.Remove k], hfile, fun _ => hlook, fun hfalse => ?_⟩
    rw [hbuild] at hfalse
    cases hfalse

theorem storeInv_compaction (s : KvStore) (h : StoreInv s) :
    StoreInv (KvStore.compaction s).2 := by
  obtain ⟨hn, cmds, hf, hb, hu⟩ := h
  obtain ⟨s', hcomp, cmds', hfile, hbuild, _, _, hnodup, hkeys, _, _⟩ :=
    compaction_spec s cmds hn hf hb hu
  rw [hcomp]
  refine ⟨hnodup, cmds', hfile, fun hfalse => ?_, fun _ => hkeys⟩
  rw [hbuild] at hfalse
  cases hfalse

theorem reachable_storeInv (s : KvStore) (h : Reachable s) : StoreInv s := by
  induction h with
  | openStore cmds => exact storeInv_openDir cmds
  | setStep s k v _ ih => exact storeInv_set s k v ih
  | getStep s k _ ih => exact storeInv_get s k ih
  | removeStep s k _ ih => exact storeInv_remove s k ih
  | compactStep s _ ih => exact storeInv_compaction s ih

/-! ## Lemmas: `set` followed by `get`, without well-formedness of the index -/

/-- The state of the store right after `set` has appended its record and
updated the index, before the compaction check. -/
def setApp (s : KvStore) (k v : String) : KvStore :=
  { file_handle := s.file_handle ++ (ronToString (Command.Set k v) ++ ['\n'])
    map := insertA s.map k s.file_handle.length
    is_build := s.is_build
    count_of_set := s.count_of_set + 1 }

theorem set_eq_setApp (s : KvStore) (k v : String) :
    KvStore.set s k v =
      (if s.count_of_set + 1 > 100 then
        match KvStore.compaction (setApp s k v) with
        | (Except.ok _, s2) => (Except.ok (), { s2 with count_of_set := 0 })
        | (Except.error e, s2) => (Except.error e, s2)
      else (Except.ok (), setApp s k v)) := rfl

theorem not_mem_keysOf_eraseA_self (m : IndexMap) (k : String) :
    k ∉ keysOf (eraseA m k) := fun h => ((mem_keysOf_eraseA m k k).mp h).2 rfl

theorem drop_append_self_record (file : List Char) (k v : String) :
    (file ++ (ronToString (Command.Set k v) ++ ['\n'])).drop file.length =
      ronToString (Command.Set k v) ++ '\n' :: [] := by
  rw [List.drop_left]

theorem fetch_append_self (file : List Char) (k v : String) :
    fetch_value (file ++ (ronToString (Command.Set k v) ++ ['\n'])) file.length =
      Except.ok v :=
  fetch_value_at_record _ _ k v [] (drop_append_self_record file k v)

theorem fetchSet?_append_self (file : List Char) (k v : String) :
    fetchSet? (file ++ (ronToString (Command.Set k v) ++ ['\n'])) file.length =
      some v :=
  fetchSet?_at_record _ _ k v [] (drop_append_self_record file k v)

theorem lookup_replay_head_set (m : IndexMap) (k v : String) (rest : List Command)
    (hk : k ∉ rest.map cmdKey) :
    lookupA (replayCmds m 0 (Command.Set k v :: rest)) k = some 0 := by
  rw [replayCmds_lookup, lastSetOff_cons, (lastSetOff_none_iff k rest _).mpr hk]
  simp

theorem lookup_replay_last_set (m : IndexMap) (cmds : List Command) (k v : String) :
    lookupA (replayCmds m 0 (cmds ++ [Command.Set k v])) k =
      some (encodeLog cmds).length := by
  rw [replayCmds_append, Nat.zero_add]
  rw [show replayCmds (replayCmds m 0 cmds) (encodeLog cmds).length [Command.Set k v] =
    insertA (replayCmds m 0 cmds) k (encodeLog cmds).length from rfl]
  rw [lookupA_insertA]
  simp

theorem get_built_fetch (s : KvStore) (k : String) (o : Nat) (v : String)
    (hb : s.is_build = true) (hl : lookupA s.map k = some o)
    (hfv : fetch_value s.file_handle o = Except.ok v) :
    KvStore.get s k = (Except.ok (some v), s) := by
  rw [KvStore.get, build_map_built s hb]
  simp only [hl, hfv]

theorem compactData_ok_inv (file : List Char) (m : IndexMap) : ∀ d : List Char,
    compactData file m = Except.ok d → d = encodeLog (compactCmds file m) := by
  induction m with
  | nil =>
    intro d h
    injection h with h
    rw [← h]
    rfl
  | cons p t ih =>
    intro d h
    obtain ⟨kk, off⟩ := p
    rw [show compactData file ((kk, off) :: t) =
      (match fetch_value file off with
       | Except.error e => Except.error e
       | Except.ok v => (compactData file t).map
           (fun d => (ronToString (Command.Set kk v) ++ ['\n']) ++ d)) from rfl] at h
    cases hfv : fetch_value file off with
    | error e =>
      rw [hfv] at h
      cases h
    | ok v =>
      rw [hfv] at h
      simp only [] at h
      cases hcd : compactData file t with
      | error e =>
        rw [hcd] at h
        cases h
      | ok d0 =>
        rw [hcd] at h
        simp only [Except.map] at h
        injection h with h
        rw [← h, ih d0 hcd]
        rw [show compactCmds file ((kk, off) :: t) =
          Command.Set kk ((fetchSet? file off).getD "") :: compactCmds file t from rfl]
        rw [fetchSet?_of_fetch_value file off v hfv]
        rw [encodeLog_cons_eq]
        rfl

theorem build_append_shape (s : KvStore) (k v : String)
    (hpre : s.is_build = true ∨ ∃ cmds : List Command, s.file_handle = encodeLog cmds) :
    ∃ (mtail : IndexMap) (sb : KvStore),
      KvStore.build_map (setApp s k v) = (Except.ok (), sb) ∧
      sb.map = (k, s.file_handle.length) :: mtail ∧
      sb.file_handle = (setApp s k v).file_handle ∧
      k ∉ keysOf mtail := by
  by_cases hb : s.is_build = true
  · refine ⟨eraseA s.map k, setApp s k v,
      build_map_built (setApp s k v) (show (setApp s k v).is_build = true from hb),
      rfl, rfl, not_mem_keysOf_eraseA_self s.map k⟩
  · rcases hpre with hb' | ⟨cmds, hf⟩
    · exact absurd hb' hb
    · have hbf : (setApp s k v).is_build = false := by
        show s.is_build = false
        cases h2 : s.is_build
        · rfl
        · exact absurd h2 hb
      have hf1 : (setApp s k v).file_handle = encodeLog (cmds ++ [Command.Set k v]) := by
        show s.file_handle ++ _ = _
        rw [encodeLog_append, hf]
        rfl
      have hmap : replayCmds (setApp s k v).map 0 (cmds ++ [Command.Set k v]) =
          (k, s.file_handle.length) ::
            eraseA (replayCmds (setApp s k v).map 0 cmds) k := by
        rw [replayCmds_append, Nat.zero_add]
        rw [show replayCmds (replayCmds (setApp s k v).map 0 cmds)
          (encodeLog cmds).length [Command.Set k v] =
          insertA (replayCmds (setApp s k v).map 0 cmds) k
            (encodeLog cmds).length from rfl]
        rw [insertA, show (encodeLog cmds).length = s.file_handle.length from by rw [hf]]
      refine ⟨eraseA (replayCmds (setApp s k v).map 0 cmds) k,
        { setApp s k v with
          map := replayCmds (setApp s k v).map 0 (cmds ++ [Command.Set k v])
          is_build := true },
        build_map_encodeLog (setApp s k v) (cmds ++ [Command.Set k v]) hf1 hbf,
        hmap, rfl, not_mem_keysOf_eraseA_self _ k⟩

/-- C1's round trip, on the success path of `set`, when the index was
built before the call or the prior log is a clean encoding. -/
theorem set_get_roundtrip (s : KvStore) (k v : String)
    (hpre : s.is_build = true ∨ ∃ cmds : List Command, s.file_handle = encodeLog cmds)
    (hok : (KvStore.set s k v).1 = Except.ok ()) :
    (KvStore.get ((KvStore.set s k v).2) k).1 = Except.ok (some v) := by
  by_cases hc : s.count_of_set + 1 > 100
  · -- compaction runs inside set
    obtain ⟨mtail, sb, hbm, hsbmap, hsbfile, hknot⟩ := build_append_shape s k v hpre
    have hfb : fetch_value sb.file_handle s.file_handle.length = Except.ok v := by
      rw [hsbfile]
      exact fetch_append_self s.file_handle k v
    have hfsb : fetchSet? sb.file_handle s.file_handle.length = some v := by
      rw [hsbfile]
      exact fetchSet?_append_self s.file_handle k v
    cases hcomp : KvStore.compaction (setApp s k v) with
    | mk r s2 =>
      cases r with
      | error e =>
        rw [set_eq_setApp, if_pos hc, hcomp] at hok
        exact Except.noConfusion hok
      | ok u =>
        have hset : KvStore.set s k v = (Except.ok (), { s2 with count_of_set := 0 }) := by
          rw [set_eq_setApp, if_pos hc, hcomp]
        rw [KvStore.compaction, hbm] at hcomp
        simp only [] at hcomp
        cases hcd : compactData sb.file_handle sb.map with
        | error e =>
          rw [hcd] at hcomp
          simp only [Prod.mk.injEq] at hcomp
          exact Except.noConfusion hcomp.1
        | ok data =>
          rw [hcd] at hcomp
          simp only [Prod.mk.injEq] at hcomp
          obtain ⟨_, hs2⟩ := hcomp
          have hdata : data = encodeLog (compactCmds sb.file_handle sb.map) :=
            compactData_ok_inv sb.file_handle sb.map data hcd
          have hcc : compactCmds sb.file_handle sb.map =
              Command.Set k v :: compactCmds sb.file_handle mtail := by
            rw [hsbmap]
            rw [show compactCmds sb.file_handle ((k, s.file_handle.length) :: mtail) =
              Command.Set k ((fetchSet? sb.file_handle s.file_handle.length).getD "") ::
                compactCmds sb.file_handle mtail from rfl]
            rw [hfsb]
            rfl
          have hfile' : ({ s2 with count_of_set := 0 } : KvStore).file_handle =
              encodeLog (Command.Set k v :: compactCmds sb.file_handle mtail) := by
            rw [← hs2]
            show data = _
            rw [hdata, hcc]
          have hbuild' : ({ s2 with count_of_set := 0 } : KvStore).is_build = false := by
            rw [← hs2]
          have hlook : lookupA (replayCmds ({ s2 with count_of_set := 0 } : KvStore).map 0
              (Command.Set k v :: compactCmds sb.file_handle mtail)) k = some 0 := by
            apply lookup_replay_head_set
            rw [compactCmds_keys]
            exact hknot
          have hfet : fetch_value ({ s2 with count_of_set := 0 } : KvStore).file_handle 0 =
              Except.ok v := by
            rw [hfile']
            exact fetch_value_at_record _ 0 k v
              (encodeLog (compactCmds sb.file_handle mtail)) rfl
          rw [hset, KvStore.get,
            build_map_encodeLog _ _ hfile' hbuild']
          simp only [hlook, hfet]
  · -- no compaction
    have hset : KvStore.set s k v = (Except.ok (), setApp s k v) := by
      rw [set_eq_setApp, if_neg hc]
    rw [hset]
    by_cases hb : s.is_build = true
    · have hget := get_built_fetch (setApp s k v) k s.file_handle.length v
        (show (setApp s k v).is_build = true from hb)
        (by
          rw [show (setApp s k v).map = insertA s.map k s.file_handle.length from rfl,
            lookupA_insertA]
          simp)
        (fetch_append_self s.file_handle k v)
      rw [hget]
    · rcases hpre with hb' | ⟨cmds, hf⟩
      · exact absurd hb' hb
      have hbf : (setApp s k v).is_build = false := by
        show s.is_build = false
        cases h2 : s.is_build
        · rfl
        · exact absurd h2 hb
      have hf1 : (setApp s k v).file_handle = encodeLog (cmds ++ [Command.Set k v]) := by
        show s.file_handle ++ _ = _
        rw [encodeLog_append, hf]
        rfl
      have hlook : lookupA (replayCmds (setApp s k v).map 0 (cmds ++ [Command.Set k v])) k =
          some s.file_handle.length := by
        rw [lookup_replay_last_set,
          show (encodeLog cmds).length = s.file_handle.length from by rw [hf]]
      have hfet : fetch_value (setApp s k v).file_handle s.file_handle.length =
          Except.ok v := fetch_append_self s.file_handle k v
      rw [KvStore.get, build_map_encodeLog _ _ hf1 hbf]
      simp only [hlook, hfet]

/-! ## Lemmas: raw characterizations of `remove` and `build_map` outcomes -/

theorem remove_eq (s : KvStore) (k : String) :
    KvStore.remove s k =
      (match (KvStore.build_map s).1 with
       | Except.error e => (Except.error e, (KvStore.build_map s).2)
       | Except.ok _ =>
         if (lookupA ((KvStore.build_map s).2).map k).isSome then
           (Except.ok (), { (KvStore.build_map s).2 with
             file_handle := ((KvStore.build_map s).2).file_handle ++
               (ronToString (Command.Remove k) ++ ['\n'])
             map := eraseA ((KvStore.build_map s).2).map k })
         else (Except.error (KvStoreError.KeyNotFound k), (KvStore.build_map s).2)) := by
  rw [KvStore.remove]
  cases hbm : KvStore.build_map s with
  | mk r sb => cases r <;> rfl

theorem build_map_ok_is_build (s : KvStore)
    (h : (KvStore.build_map s).1 = Except.ok ()) :
    ((KvStore.build_map s).2).is_build = true := by
  rw [KvStore.build_map] at h ⊢
  by_cases hb : s.is_build
  · rw [if_pos hb]
    exact hb
  · rw [if_neg hb] at h ⊢
    revert h
    cases hbl : buildLoop s.file_handle 0 s.map with
    | mk r m =>
      intro h
      cases r with
      | error e => exact Except.noConfusion h
      | ok u => rfl

theorem logValue_head_set (k v : String) (rest : List Command)
    (hk : k ∉ rest.map cmdKey) :
    logValue (Command.Set k v :: rest) k = some v := by
  rw [logValue, lastCmdFor_cons,
    (lastSetOff_lastCmdFor rest 0 k).1 ((lastSetOff_none_iff k rest 0).mpr hk)]
  simp [cmdKey]

/-- The file written by a successful `set` is a clean log whose latest
value for the written key is the written value. -/
theorem set_file_spec (s : KvStore) (k v : String) (cmds : List Command)
    (hf : s.file_handle = encodeLog cmds)
    (hok : (KvStore.set s k v).1 = Except.ok ()) :
    ∃ cmds' : List Command, ((KvStore.set s k v).2).file_handle = encodeLog cmds' ∧
      logValue cmds' k = some v := by
  by_cases hc : s.count_of_set + 1 > 100
  · obtain ⟨mtail, sb, hbm, hsbmap, hsbfile, hknot⟩ :=
      build_append_shape s k v (Or.inr ⟨cmds, hf⟩)
    have hfsb : fetchSet? sb.file_handle s.file_handle.length = some v := by
      rw [hsbfile]
      exact fetchSet?_append_self s.file_handle k v
    cases hcomp : KvStore.compaction (setApp s k v) with
    | mk r s2 =>
      cases r with
      | error e =>
        rw [set_eq_setApp, if_pos hc, hcomp] at hok
        exact Except.noConfusion hok
      | ok u =>
        have hset : KvStore.set s k v = (Except.ok (), { s2 with count_of_set := 0 }) := by
          rw [set_eq_setApp, if_pos hc, hcomp]
        rw [KvStore.compaction, hbm] at hcomp
        simp only [] at hcomp
        cases hcd : compactData sb.file_handle sb.map with
        | error e =>
          rw [hcd] at hcomp
          simp only [Prod.mk.injEq] at hcomp
          exact Except.noConfusion hcomp.1
        | ok data =>
          rw [hcd] at hcomp
          simp only [Prod.mk.injEq] at hcomp
          obtain ⟨_, hs2⟩ := hcomp
          have hdata : data = encodeLog (compactCmds sb.file_handle sb.map) :=
            compactData_ok_inv sb.file_handle sb.map data hcd
          have hcc : compactCmds sb.file_handle sb.map =
              Command.Set k v :: compactCmds sb.file_handle mtail := by
            rw [hsbmap]
            rw [show compactCmds sb.file_handle ((k, s.file_handle.length) :: mtail) =
              Command.Set k ((fetchSet? sb.file_handle s.file_handle.length).getD "") ::
                compactCmds sb.file_handle mtail from rfl]
            rw [hfsb]
            rfl
          refine ⟨Command.Set k v :: compactCmds sb.file_handle mtail, ?_, ?_⟩
          · rw [hset]
            show s2.file_handle = _
            rw [← hs2]
            show data = _
            rw [hdata, hcc]
          · apply logValue_head_set
            rw [compactCmds_keys]
            exact hknot
  · have hset : KvStore.set s k v = (Except.ok (), setApp s k v) := by
      rw [set_eq_setApp, if_neg hc]
    refine ⟨cmds ++ [Command.Set k v], ?_, ?_⟩
    · rw [hset]
      show s.file_handle ++ _ = _
      rw [encodeLog_append, hf]
      rfl
    · rw [logValue_append_set]
      simp

/-! ## The claims -/

/-- **C1**, as stated, is false: with the index not yet built and a prior
log that does not replay cleanly (here the one-byte file `x`), `set`
succeeds but the subsequent `get` fails with a decode error instead of
returning the value, because the first read replays the whole log.  This
refutes "regardless of any prior log contents". -/
theorem C1_counterexample :
    ¬ (∀ (s : KvStore) (k v : String),
        (KvStore.get ((KvStore.set s k v).2) k).1 = Except.ok (some v)) := by
  intro hall
  have h := hall { file_handle := ['x'], map := [], is_build := false, count_of_set := 0 }
    "k" "v"
  rw [show (KvStore.set
        { file_handle := ['x'], map := [], is_build := false, count_of_set := 0 }
        "k" "v").2 =
      { file_handle := 'x' :: (ronToString (Command.Set "k" "v") ++ ['\n']),
        map := [("k", 1)], is_build := false, count_of_set := 1 } from rfl] at h
  have hbl : buildLoop ('x' :: (ronToString (Command.Set "k" "v") ++ ['\n'])) 0 [("k", 1)] =
      (Except.error (fromRonError "parse error"), [("k", 1)]) := by
    rw [buildLoop]
    rw [dif_neg (show ¬('x' :: (ronToString (Command.Set "k" "v") ++ ['\n']) = [])
      from by simp)]
    rw [show parseCommand (takeLine ('x' :: (ronToString (Command.Set "k" "v") ++ ['\n']))) =
      none from by decide]
  have hbm : KvStore.build_map
      { file_handle := 'x' :: (ronToString (Command.Set "k" "v") ++ ['\n']),
        map := [("k", 1)], is_build := false, count_of_set := 1 } =
      (Except.error (fromRonError "parse error"),
       { file_handle := 'x' :: (ronToString (Command.Set "k" "v") ++ ['\n']),
         map := [("k", 1)], is_build := false, count_of_set := 1 }) := by
    have hnb :
        ¬(({ file_handle := 'x' :: (ronToString (Command.Set "k" "v") ++ ['\n']),
             map := [("k", 1)], is_build := false, count_of_set := 1 } : KvStore).is_build =
          true) := by
      decide
    rw [KvStore.build_map, if_neg hnb, hbl]
  rw [KvStore.get, hbm] at h
  exact Except.noConfusion h

/-- **C1** (amended): for all keys `k` and values `v`, if `set(store, k, v)`
returns `Ok` then `get(store, k)` right after returns `v`, regardless of
whether the index was built before the set, provided that when the index
was not yet built the prior log contents replay cleanly (the log is a
concatenation of encoded records); with a built index the prior log and
index contents are arbitrary. -/
theorem C1_set_then_get (s : KvStore) (k v : String)
    (hpre : s.is_build = true ∨ ∃ cmds : List Command, s.file_handle = encodeLog cmds)
    (hok : (KvStore.set s k v).1 = Except.ok ()) :
    (KvStore.get ((KvStore.set s k v).2) k).1 = Except.ok (some v) :=
  set_get_roundtrip s k v hpre hok

/-- Witness for C1: a concrete store (fresh directory), concrete key and
value, with both hypotheses discharged by computation. -/
theorem C1_witness :
    (KvStore.get ((KvStore.set (openDir none) "a" "1").2) "a").1 =
      Except.ok (some "1") :=
  C1_set_then_get (openDir none) "a" "1" (Or.inr ⟨[], rfl⟩) rfl

/-- **C2**: compaction is content-preserving on every well-formed store
state: the value `get` reports for each key is identical before and
after, the built flag is false afterwards, and the log never grows
(hence shrinks whenever obsolete records existed). -/
theorem C2_compaction_preserves (s : KvStore) (h : StoreInv s) :
    ∃ s' : KvStore, KvStore.compaction s = (Except.ok (), s') ∧
      (∀ k : String, (KvStore.get s' k).1 = (KvStore.get s k).1) ∧
      s'.is_build = false ∧
      s'.file_handle.length ≤ s.file_handle.length := by
  obtain ⟨hn, cmds, hf, hb, hu⟩ := h
  obtain ⟨s', hcomp, cmds', hfile, hbuild, _, _, hnodup, hkeys, hlog, hsize⟩ :=
    compaction_spec s cmds hn hf hb hu
  refine ⟨s', hcomp, ?_, hbuild, hsize⟩
  intro k
  have h1 := get_spec s' cmds' k hnodup hfile
    (fun hfalse => absurd (hbuild ▸ hfalse) (by simp)) (fun _ => hkeys)
  have h2 := get_spec s cmds k hn hf hb hu
  rw [h1, h2]
  rw [show ((Except.ok (logValue cmds' k) : Except KvStoreError (Option String)),
    (KvStore.build_map s').2).1 = Except.ok (logValue cmds' k) from rfl]
  rw [show ((Except.ok (logValue cmds k) : Except KvStoreError (Option String)),
    (KvStore.build_map s).2).1 = Except.ok (logValue cmds k) from rfl]
  rw [hlog k]

/-- Witness for C2: compaction of a concrete store whose log holds an
overwritten key and a removed key. -/
theorem C2_witness :
    ∃ s' : KvStore, KvStore.compaction (openDir (some (encodeLog
        [Command.Set "a" "1", Command.Set "a" "2", Command.Set "b" "3",
         Command.Remove "b"]))) = (Except.ok (), s') ∧
      (∀ k : String, (KvStore.get s' k).1 =
        (KvStore.get (openDir (some (encodeLog
          [Command.Set "a" "1", Command.Set "a" "2", Command.Set "b" "3",
           Command.Remove "b"]))) k).1) ∧
      s'.is_build = false ∧
      s'.file_handle.length ≤ (openDir (some (encodeLog
        [Command.Set "a" "1", Command.Set "a" "2", Command.Set "b" "3",
         Command.Remove "b"]))).file_handle.length :=
  C2_compaction_preserves _ (storeInv_openDir _)

/-- **C3**: after a successful `set(store, k, v)` on a store whose log is
a clean encoding, closing the store and re-opening a store on the same
directory (whose log file now holds the bytes the set left behind) makes
`get(k)` return `v`; `open` with no existing file yields an empty log,
`open` never truncates an existing log, the fresh handle starts with an
empty, unbuilt index and a zeroed counter, and the first read sets the
built flag by replaying the log. -/
theorem C3_persistence (s : KvStore) (cmds : List Command) (k v : String)
    (hf : s.file_handle = encodeLog cmds)
    (hok : (KvStore.set s k v).1 = Except.ok ()) :
    (KvStore.get (openDir (some ((KvStore.set s k v).2).file_handle)) k).1 =
      Except.ok (some v) ∧
    ((KvStore.get (openDir (some ((KvStore.set s k v).2).file_handle)) k).2).is_build =
      true ∧
    (openDir none).file_handle = [] ∧
    (∀ f : List Char, (openDir (some f)).file_handle = f) ∧
    (∀ ex : Option (List Char), (openDir ex).map = [] ∧ (openDir ex).is_build = false ∧
      (openDir ex).count_of_set = 0) := by
  obtain ⟨cmds', hfile', hlv⟩ := set_file_spec s k v cmds hf hok
  have hnodup : NodupKeys (openDir (some ((KvStore.set s k v).2).file_handle)).map := by
    simp [NodupKeys, keysOf, openDir]
  have hof : (openDir (some ((KvStore.set s k v).2).file_handle)).file_handle =
      encodeLog cmds' := hfile'
  have hb0 : (openDir (some ((KvStore.set s k v).2).file_handle)).is_build = true →
      ∀ q, lookupA (openDir (some ((KvStore.set s k v).2).file_handle)).map q =
        lookupA (semMap cmds') q := fun hh => Bool.noConfusion hh
  have hu0 : (openDir (some ((KvStore.set s k v).2).file_handle)).is_build = false →
      ∀ q ∈ keysOf (openDir (some ((KvStore.set s k v).2).file_handle)).map,
        q ∈ cmds'.map cmdKey := by
    intro _ q hq
    simp [openDir, keysOf] at hq
  have hget := get_spec (openDir (some ((KvStore.set s k v).2).file_handle)) cmds' k
    hnodup hof hb0 hu0
  obtain ⟨h1, _, _, h4, _, _⟩ := build_map_spec
    (openDir (some ((KvStore.set s k v).2).file_handle)) cmds' hnodup hof hb0 hu0
  refine ⟨?_, ?_, rfl, fun f => rfl, fun ex => ⟨rfl, rfl, rfl⟩⟩
  · rw [hget]
    show Except.ok (logValue cmds' k) = _
    rw [hlv]
  · rw [hget]
    exact h4

/-- Witness for C3: a fresh store, one set, one reopen, all hypotheses
discharged by computation. -/
theorem C3_witness :
    (KvStore.get (openDir (some ((KvStore.set (openDir none) "a" "1").2).file_handle))
        "a").1 = Except.ok (some "1") ∧
    ((KvStore.get (openDir (some ((KvStore.set (openDir none) "a" "1").2).file_handle))
        "a").2).is_build = true ∧
    (openDir none).file_handle = [] ∧
    (∀ f : List Char, (openDir (some f)).file_handle = f) ∧
    (∀ ex : Option (List Char), (openDir ex).map = [] ∧ (openDir ex).is_build = false ∧
      (openDir ex).count_of_set = 0) :=
  C3_persistence (openDir none) [] "a" "1" rfl rfl

/-- **C4**: the concrete log `Set(k,"a"); Set(k,"b"); Remove(k); Set(k,"c")`
replays so that `get(k)` returns `"c"`; in general a fresh replay maps a
key ending in a `Set` record to exactly that record's byte offset (the sum
of all earlier records' encoded lengths, newline delimiters included) and
drops a key ending in a `Remove`. -/
theorem C4_replay_order :
    (∀ k : String,
      (KvStore.get (openDir (some (encodeLog
        [Command.Set k "a", Command.Set k "b", Command.Remove k,
         Command.Set k "c"]))) k).1 = Except.ok (some "c")) ∧
    (∀ (cmds : List Command) (k v : String),
      lookupA (((KvStore.build_map (openDir (some (encodeLog
        (cmds ++ [Command.Set k v]))))).2).map) k = some (encodeLog cmds).length) ∧
    (∀ (cmds : List Command) (k : String),
      lookupA (((KvStore.build_map (openDir (some (encodeLog
        (cmds ++ [Command.Remove k]))))).2).map) k = none) := by
  refine ⟨?_, ?_, ?_⟩
  · intro k
    have hget := get_spec (openDir (some (encodeLog
        [Command.Set k "a", Command.Set k "b", Command.Remove k, Command.Set k "c"])))
      [Command.Set k "a", Command.Set k "b", Command.Remove k, Command.Set k "c"] k
      (by simp [NodupKeys, keysOf, openDir]) rfl
      (fun hh => Bool.noConfusion hh)
      (by intro _ q hq; simp [openDir, keysOf] at hq)
    rw [hget]
    show Except.ok (logValue
      [Command.Set k "a", Command.Set k "b", Command.Remove k, Command.Set k "c"] k) = _
    rw [show [Command.Set k "a", Command.Set k "b", Command.Remove k, Command.Set k "c"] =
      [Command.Set k "a", Command.Set k "b", Command.Remove k] ++ [Command.Set k "c"]
      from rfl]
    rw [logValue_append_set]
    simp
  · intro cmds k v
    rw [build_map_encodeLog _ _ rfl rfl]
    show lookupA (replayCmds (openDir (some (encodeLog (cmds ++ [Command.Set k v])))).map 0
      (cmds ++ [Command.Set k v])) k = _
    rw [lookup_replay_last_set]
  · intro cmds k
    rw [build_map_encodeLog _ _ rfl rfl]
    show lookupA (replayCmds (openDir (some (encodeLog (cmds ++ [Command.Remove k])))).map 0
      (cmds ++ [Command.Remove k])) k = _
    rw [replayCmds_append, Nat.zero_add]
    rw [show replayCmds (replayCmds (openDir (some (encodeLog
      (cmds ++ [Command.Remove k])))).map 0 cmds) (encodeLog cmds).length
      [Command.Remove k] = eraseA (replayCmds (openDir (some (encodeLog
      (cmds ++ [Command.Remove k])))).map 0 cmds) k from rfl]
    rw [lookupA_eraseA]
    simp

theorem remove_ok_built_absent (s : KvStore) (k : String)
    (hok : (KvStore.remove s k).1 = Except.ok ()) :
    ((KvStore.remove s k).2).is_build = true ∧
    lookupA ((KvStore.remove s k).2).map k = none := by
  rw [remove_eq] at hok ⊢
  cases hb1 : (KvStore.build_map s).1 with
  | error e =>
    rw [hb1] at hok
    exact Except.noConfusion hok
  | ok u =>
    rw [hb1] at hok
    simp only [] at hok ⊢
    by_cases hl : (lookupA ((KvStore.build_map s).2).map k).isSome = true
    · rw [if_pos hl] at hok ⊢
      constructor
      · show ((KvStore.build_map s).2).is_build = true
        apply build_map_ok_is_build
        cases u
        exact hb1
      · show lookupA (eraseA ((KvStore.build_map s).2).map k) k = none
        rw [lookupA_eraseA]
        simp
    · rw [if_neg hl] at hok
      exact Except.noConfusion hok

theorem get_snd (s : KvStore) (k : String) :
    (KvStore.get s k).2 = (KvStore.build_map s).2 := by
  rw [KvStore.get]
  cases hbm : KvStore.build_map s with
  | mk r sb =>
    cases r with
    | error e => rfl
    | ok u =>
      show (match lookupA sb.map k with
        | some offset =>
          match fetch_value sb.file_handle offset with
          | Except.ok v => (Except.ok (some v), sb)
          | Except.error e => (Except.error e, sb)
        | none => (Except.ok none, sb)).2 = sb
      cases hl : lookupA sb.map k with
      | none => rfl
      | some o =>
        show (match fetch_value sb.file_handle o with
          | Except.ok v => (Except.ok (some v), sb)
          | Except.error e => (Except.error e, sb)).2 = sb
        cases hfv : fetch_value sb.file_handle o with
        | ok v => rfl
        | error e => rfl

/-- **C5**: a `get` on a built index with the key absent is the normal
`Ok(None)` outcome (no error, no state change); and after a `set`
followed by a successful `remove` of the same key, `get` reports the key
absent. -/
theorem C5_absent_returns_none :
    (∀ (s : KvStore) (k : String), s.is_build = true → lookupA s.map k = none →
      KvStore.get s k = (Except.ok none, s)) ∧
    (∀ (s : KvStore) (k v : String),
      (KvStore.set s k v).1 = Except.ok () →
      (KvStore.remove ((KvStore.set s k v).2) k).1 = Except.ok () →
      (KvStore.get ((KvStore.remove ((KvStore.set s k v).2) k).2) k).1 =
        Except.ok none) := by
  constructor
  · exact fun s k hb hl => get_built_none s k hb hl
  · intro s k v _ hok
    obtain ⟨hb2, hl2⟩ := remove_ok_built_absent ((KvStore.set s k v).2) k hok
    rw [get_built_none _ k hb2 hl2]

/-- Witness for C5: concrete built store with an absent key, and a
concrete set/remove/get chain. -/
theorem C5_witness :
    KvStore.get { file_handle := [], map := [], is_build := true, count_of_set := 0 } "z" =
      (Except.ok none,
        { file_handle := [], map := [], is_build := true, count_of_set := 0 }) ∧
    (KvStore.get ((KvStore.remove ((KvStore.set (openDir none) "a" "1").2) "a").2) "a").1 =
      Except.ok none := by
  have hrm := (remove_spec ((KvStore.set (openDir none) "a" "1").2) [Command.Set "a" "1"]
    "a" (show NodupKeys [("a", 0)] by simp [NodupKeys, keysOf]) rfl
    (fun hh => Bool.noConfusion hh)
    (by
      intro _ q hq
      have hq2 : q ∈ keysOf [("a", 0)] := hq
      simp only [keysOf, List.map_cons, List.map_nil, List.mem_singleton] at hq2
      simp [hq2, cmdKey])).2 "1" rfl
  obtain ⟨s', heq, _⟩ := hrm
  constructor
  · exact C5_absent_returns_none.1 _ "z" rfl rfl
  · exact C5_absent_returns_none.2 (openDir none) "a" "1" rfl (by rw [heq])

/-- **C6**: `remove` on a key absent from the built index fails with
`KeyNotFound` and appends nothing (the log file is unchanged, since
building the index never writes); `KeyNotFound` is distinguishable from
every other error kind of the store; and a second `remove` right after a
successful one fails the same way. -/
theorem C6_remove_absent :
    (∀ (s : KvStore) (k : String),
      (KvStore.build_map s).1 = Except.ok () →
      lookupA ((KvStore.build_map s).2).map k = none →
      KvStore.remove s k = (Except.error (KvStoreError.KeyNotFound k),
        (KvStore.build_map s).2)) ∧
    (∀ s : KvStore, ((KvStore.build_map s).2).file_handle = s.file_handle) ∧
    (∀ k m : String, KvStoreError.KeyNotFound k ≠ KvStoreError.FileOpenError m ∧
      KvStoreError.KeyNotFound k ≠ KvStoreError.CommandConvertError m ∧
      KvStoreError.KeyNotFound k ≠ KvStoreError.UnknownError m) ∧
    (∀ (s : KvStore) (k : String), (KvStore.remove s k).1 = Except.ok () →
      KvStore.remove ((KvStore.remove s k).2) k =
        (Except.error (KvStoreError.KeyNotFound k), (KvStore.remove s k).2)) := by
  refine ⟨?_, fun s => build_map_file s, ?_, ?_⟩
  · intro s k h1 hl
    rw [remove_eq, h1, hl]
    rfl
  · intro k m
    exact ⟨fun hh => KvStoreError.noConfusion hh, fun hh => KvStoreError.noConfusion hh,
      fun hh => KvStoreError.noConfusion hh⟩
  · intro s k hok
    obtain ⟨hb2, hl2⟩ := remove_ok_built_absent s k hok
    rw [remove_eq, build_map_built _ hb2]
    rw [show ((Except.ok () : Except KvStoreError Unit), (KvStore.remove s k).2).1 =
      Except.ok () from rfl]
    rw [show ((Except.ok () : Except KvStoreError Unit),
      (KvStore.remove s k).2).2 = (KvStore.remove s k).2 from rfl]
    rw [hl2]
    rfl

/-- Witness for C6: a concrete built store with an absent key and a
concrete double remove. -/
theorem C6_witness :
    KvStore.remove { file_handle := [], map := [], is_build := true, count_of_set := 0 }
        "z" = (Except.error (KvStoreError.KeyNotFound "z"),
          (KvStore.build_map
            { file_handle := [], map := [], is_build := true, count_of_set := 0 }).2) ∧
    KvStoreError.KeyNotFound "z" ≠ KvStoreError.FileOpenError "m" ∧
    KvStore.remove ((KvStore.remove ((KvStore.set (openDir none) "a" "1").2) "a").2) "a" =
      (Except.error (KvStoreError.KeyNotFound "a"),
        (KvStore.remove ((KvStore.set (openDir none) "a" "1").2) "a").2) := by
  have hrm := (remove_spec ((KvStore.set (openDir none) "a" "1").2) [Command.Set "a" "1"]
    "a" (show NodupKeys [("a", 0)] by simp [NodupKeys, keysOf]) rfl
    (fun hh => Bool.noConfusion hh)
    (by
      intro _ q hq
      have hq2 : q ∈ keysOf [("a", 0)] := hq
      simp only [keysOf, List.map_cons, List.map_nil, List.mem_singleton] at hq2
      simp [hq2, cmdKey])).2 "1" rfl
  obtain ⟨s', heq, _⟩ := hrm
  refine ⟨C6_remove_absent.1 _ "z" rfl rfl, (C6_remove_absent.2.2.1 "z" "m").1, ?_⟩
  exact C6_remove_absent.2.2.2 _ "a" (by rw [heq])

/-- **C7**: a successful `set` leaves the counter at `old + 1` unless that
exceeds the fixed threshold 100, in which case compaction ran and the
counter is reset to zero; when the incremented counter does not exceed
100 `set` is exactly the plain append (no compaction), and when it does,
`set` is exactly compaction of the appended state followed by the counter
reset; `remove` never changes the counter and only ever appends its own
record (never rewriting the log), and `get` never changes the counter. -/
theorem C7_counter_policy :
    (∀ (s : KvStore) (k v : String),
      (KvStore.set s k v).1 = Except.ok () →
      ((KvStore.set s k v).2).count_of_set =
        (if s.count_of_set + 1 > 100 then 0 else s.count_of_set + 1)) ∧
    (∀ (s : KvStore) (k v : String), ¬(s.count_of_set + 1 > 100) →
      KvStore.set s k v = (Except.ok (), setApp s k v)) ∧
    (∀ (s : KvStore) (k v : String), s.count_of_set + 1 > 100 →
      KvStore.set s k v =
        (match KvStore.compaction (setApp s k v) with
         | (Except.ok _, s2) => (Except.ok (), { s2 with count_of_set := 0 })
         | (Except.error e, s2) => (Except.error e, s2))) ∧
    (∀ (s : KvStore) (k : String),
      ((KvStore.remove s k).2).count_of_set = s.count_of_set ∧
      ((KvStore.remove s k).1 = Except.ok () →
        ((KvStore.remove s k).2).file_handle =
          s.file_handle ++ (ronToString (Command.Remove k) ++ ['\n'])) ∧
      (∀ e : KvStoreError, (KvStore.remove s k).1 = Except.error e →
        ((KvStore.remove s k).2).file_handle = s.file_handle)) ∧
    (∀ (s : KvStore) (k : String),
      ((KvStore.get s k).2).count_of_set = s.count_of_set) := by
  refine ⟨?_, ?_, ?_, ?_, ?_⟩
  · intro s k v hok
    by_cases hc : s.count_of_set + 1 > 100
    · rw [if_pos hc]
      rw [set_eq_setApp, if_pos hc] at hok ⊢
      cases hcomp : KvStore.compaction (setApp s k v) with
      | mk r s2 =>
        rw [hcomp] at hok
        cases r with
        | error e => exact Except.noConfusion hok
        | ok u => rfl
    · rw [if_neg hc, set_eq_setApp, if_neg hc]
      rfl
  · intro s k v hc
    rw [set_eq_setApp, if_neg hc]
  · intro s k v hc
    rw [set_eq_setApp, if_pos hc]
  · intro s k
    rw [remove_eq]
    cases hb1 : (KvStore.build_map s).1 with
    | error e =>
      refine ⟨build_map_count s, fun hh => Except.noConfusion hh, fun e2 _ => ?_⟩
      exact build_map_file s
    | ok u =>
      by_cases hl : (lookupA ((KvStore.build_map s).2).map k).isSome = true
      · rw [if_pos hl]
        refine ⟨build_map_count s, fun _ => ?_, fun e2 hh => Except.noConfusion hh⟩
        show ((KvStore.build_map s).2).file_handle ++ _ = _
        rw [build_map_file s]
      · rw [if_neg hl]
        refine ⟨build_map_count s, fun hh => Except.noConfusion hh, fun e2 _ => ?_⟩
        exact build_map_file s
  · intro s k
    rw [get_snd]
    exact build_map_count s

/-- Witness for C7: the counter equation, the two control-flow branches,
and the remove/get clauses at concrete inputs. -/
theorem C7_witness :
    ((KvStore.set (openDir none) "a" "1").2).count_of_set =
      (if (openDir none).count_of_set + 1 > 100 then 0
       else (openDir none).count_of_set + 1) ∧
    KvStore.set (openDir none) "a" "1" = (Except.ok (), setApp (openDir none) "a" "1") ∧
    KvStore.set { file_handle := [], map := [], is_build := false, count_of_set := 100 }
        "a" "1" =
      (match KvStore.compaction (setApp
        { file_handle := [], map := [], is_build := false, count_of_set := 100 }
        "a" "1") with
       | (Except.ok _, s2) => (Except.ok (), { s2 with count_of_set := 0 })
       | (Except.error e, s2) => (Except.error e, s2)) ∧
    ((KvStore.remove (openDir none) "z").2).count_of_set =
      (openDir none).count_of_set ∧
    ((KvStore.get (openDir none) "z").2).count_of_set =
      (openDir none).count_of_set := by
  refine ⟨C7_counter_policy.1 (openDir none) "a" "1" rfl,
    C7_counter_policy.2.1 (openDir none) "a" "1" (by decide),
    C7_counter_policy.2.2.1 _ "a" "1" (by decide),
    (C7_counter_policy.2.2.2.1 (openDir none) "z").1,
    C7_counter_policy.2.2.2.2 (openDir none) "z"⟩

/-- **C8**: in every reachable store state whose built flag is set, the
log is a clean encoding of a command sequence, every offset stored in the
index points at a syntactically valid one-line `Set` record whose key
equals the index key, and every key absent from the index either never
appears in a `Set` record of the log or is last touched by a `Remove`;
reachability is closed under every operation (set, get, remove, and
compaction followed by rebuild), so every operation preserves this
invariant. -/
theorem C8_index_invariant (s : KvStore) (h : Reachable s) (hb : s.is_build = true) :
    ∃ cmds : List Command,
      s.file_handle = encodeLog cmds ∧
      (∀ p ∈ s.map, ∃ v : String,
        parseCommand (takeLine (s.file_handle.drop p.2)) = some (Command.Set p.1 v)) ∧
      (∀ k : String, lookupA s.map k = none →
        (∀ v : String, Command.Set k v ∉ cmds) ∨
        lastCmdFor cmds k = some (Command.Remove k)) := by
  obtain ⟨hn, cmds, hf, hbl, _⟩ := reachable_storeInv s h
  refine ⟨cmds, hf, ?_, ?_⟩
  · intro p hp
    have hlk : lookupA s.map p.1 = some p.2 := lookupA_entry s.map p hn hp
    rw [hbl hb p.1] at hlk
    obtain ⟨v, _, _, _, tl, htl⟩ := semMap_fetch cmds p.1 p.2 hlk
    refine ⟨v, ?_⟩
    rw [hf, htl, takeLine_append_newline _ _ (ronToString_no_newline _),
      parseCommand_ron_nl]
  · intro k hnone
    rw [hbl hb k] at hnone
    rw [semMap, replayCmds_lookup] at hnone
    cases hls : lastSetOff k 0 cmds with
    | none =>
      left
      intro v hmem
      exact (lastSetOff_none_iff k cmds 0).mp hls
        (List.mem_map.mpr ⟨Command.Set k v, hmem, rfl⟩)
    | some r =>
      cases r with
      | none =>
        right
        exact (lastSetOff_lastCmdFor cmds 0 k).2.1 hls
      | some p =>
        rw [hls] at hnone
        simp at hnone

/-- Witness for C8: a concrete reachable built state (open on a one-record
log, then one `get`, which builds the index). -/
theorem C8_witness :
    ∃ cmds : List Command,
      ((KvStore.get (openDir (some (encodeLog [Command.Set "a" "1"]))) "a").2).file_handle =
        encodeLog cmds ∧
      (∀ p ∈ ((KvStore.get (openDir (some (encodeLog [Command.Set "a" "1"]))) "a").2).map,
        ∃ v : String,
        parseCommand (takeLine
          ((((KvStore.get (openDir (some (encodeLog [Command.Set "a" "1"]))) "a").2)
            ).file_handle.drop p.2)) = some (Command.Set p.1 v)) ∧
      (∀ k : String,
        lookupA ((KvStore.get (openDir (some (encodeLog [Command.Set "a" "1"]))) "a").2).map
          k = none →
        (∀ v : String, Command.Set k v ∉ cmds) ∨
        lastCmdFor cmds k = some (Command.Remove k)) := by
  apply C8_index_invariant
  · exact Reachable.getStep _ "a" (Reachable.openStore [Command.Set "a" "1"])
  · rw [get_snd, build_map_encodeLog _ [Command.Set "a" "1"] rfl rfl]

/-- **C9**, as stated, is false: an I/O error during `set` is not distinct
from the open-time error — both are surfaced as the same `FileOpenError`
value, because `From<std::io::Error>` maps every I/O error to
`FileOpenError`.  Refuted at the concrete message `disk full`. -/
theorem C9_counterexample :
    ¬ (∀ (m : String) (s : KvStore) (k v : String) (e₁ e₂ : KvStoreError),
        (KvStore.setF { encodeE := none, seekE := none, writeE := some m } s k v).1 =
          Except.error e₁ →
        KvStore.open (Except.error m) = Except.error e₂ →
        e₁ ≠ e₂) := by
  intro hall
  exact hall "disk full" (openDir none) "k" "v"
    (KvStoreError.FileOpenError "disk full") (KvStoreError.FileOpenError "disk full")
    rfl rfl rfl

/-- **C9** (amended): an I/O error during `set` (seek or write) is
surfaced as `FileOpenError` — the same kind, with the same payload, as an
open-time failure, so the two are not distinguishable; a record at an
index-stored offset that decodes to the wrong (`Remove`) variant is
signaled as `UnknownError`, which is distinct from the generic decode
failure `CommandConvertError`, and `get` returns it as an error rather
than silently ignoring it. -/
theorem C9_error_kinds :
    (∀ (m : String) (s : KvStore) (k v : String),
      KvStore.setF { encodeE := none, seekE := none, writeE := some m } s k v =
        (Except.error (KvStoreError.FileOpenError m), s) ∧
      KvStore.setF { encodeE := none, seekE := some m, writeE := none } s k v =
        (Except.error (KvStoreError.FileOpenError m), s) ∧
      KvStore.open (Except.error m) =
        Except.error (KvStoreError.FileOpenError m)) ∧
    (∀ (file : List Char) (off : Nat) (k : String),
      parseCommand (takeLine (file.drop off)) = some (Command.Remove k) →
      fetch_value file off =
        Except.error (KvStoreError.UnknownError "Command info not matched")) ∧
    (∀ m₁ m₂ : String,
      KvStoreError.UnknownError m₁ ≠ KvStoreError.CommandConvertError m₂) ∧
    (∀ (s : KvStore) (k : String) (off : Nat) (k' : String),
      s.is_build = true → lookupA s.map k = some off →
      parseCommand (takeLine (s.file_handle.drop off)) = some (Command.Remove k') →
      (KvStore.get s k).1 =
        Except.error (KvStoreError.UnknownError "Command info not matched")) := by
  refine ⟨fun m s k v => ⟨rfl, rfl, rfl⟩, ?_, ?_, ?_⟩
  · intro file off k hp
    rw [fetch_value, hp]
  · intro m₁ m₂
    exact fun hh => KvStoreError.noConfusion hh
  · intro s k off k' hb hl hp
    have hfv : fetch_value s.file_handle off =
        Except.error (KvStoreError.UnknownError "Command info not matched") := by
      rw [fetch_value, hp]
    rw [KvStore.get, build_map_built s hb]
    simp only [hl, hfv]

/-- Witness for C9: the wrong-variant record and the error propagation at
concrete inputs. -/
theorem C9_witness :
    fetch_value (encodeLog [Command.Remove "a"]) 0 =
      Except.error (KvStoreError.UnknownError "Command info not matched") ∧
    KvStoreError.UnknownError "x" ≠ KvStoreError.CommandConvertError "x" ∧
    (KvStore.get
        { file_handle := encodeLog [Command.Remove "a"], map := [("a", 0)],
          is_build := true, count_of_set := 0 } "a").1 =
      Except.error (KvStoreError.UnknownError "Command info not matched") := by
  have hp : parseCommand (takeLine ((encodeLog [Command.Remove "a"]).drop 0)) =
      some (Command.Remove "a") := by
    show parseCommand (takeLine (encodeLog [Command.Remove "a"])) = _
    rw [show encodeLog [Command.Remove "a"] =
      ronToString (Command.Remove "a") ++ '\n' :: [] from rfl]
    rw [takeLine_append_newline _ _ (ronToString_no_newline _), parseCommand_ron_nl]
  exact ⟨C9_error_kinds.2.1 _ 0 "a" hp, C9_error_kinds.2.2.1 "x" "x",
    C9_error_kinds.2.2.2 _ "a" 0 "a" rfl rfl hp⟩

theorem removeF_snd (fl : Faults) (s : KvStore) (k : String)
    (hfl : fl.encodeE ≠ none ∨ fl.seekE ≠ none ∨ fl.writeE ≠ none) :
    (KvStore.removeF fl s k).2 = (KvStore.build_map s).2 := by
  obtain ⟨eE, sE, wE⟩ := fl
  rw [KvStore.removeF]
  cases hbm : KvStore.build_map s with
  | mk r sb =>
    cases r with
    | error e => rfl
    | ok u =>
      simp only []
      by_cases hl : (lookupA sb.map k).isSome = true
      · rw [if_pos hl]
        cases eE with
        | some m => rfl
        | none =>
          cases sE with
          | some m => rfl
          | none =>
            cases wE with
            | some m => rfl
            | none =>
              rcases hfl with h | h | h <;> exact absurd rfl h
      · rw [if_neg hl]

theorem removeF_err (fl : Faults) (s : KvStore) (k : String)
    (hfl : fl.encodeE ≠ none ∨ fl.seekE ≠ none ∨ fl.writeE ≠ none) :
    ∃ e, (KvStore.removeF fl s k).1 = Except.error e := by
  obtain ⟨eE, sE, wE⟩ := fl
  rw [KvStore.removeF]
  cases hbm : KvStore.build_map s with
  | mk r sb =>
    cases r with
    | error e => exact ⟨e, rfl⟩
    | ok u =>
      simp only []
      by_cases hl : (lookupA sb.map k).isSome = true
      · rw [if_pos hl]
        cases eE with
        | some m => exact ⟨fromRonError m, rfl⟩
        | none =>
          cases sE with
          | some m => exact ⟨fromIoError m, rfl⟩
          | none =>
            cases wE with
            | some m => exact ⟨fromIoError m, rfl⟩
            | none =>
              rcases hfl with h | h | h <;> exact absurd rfl h
      · rw [if_neg hl]
        exact ⟨KvStoreError.KeyNotFound k, rfl⟩

/-- **C10**, as stated, is false: a `remove` whose append fails does not
leave the built flag (nor the index) unchanged when the index was not yet
built, because `build_map` runs — and mutates the store — before the
fallible append.  Refuted at a store freshly opened on a one-record log
with an injected write failure. -/
theorem C10_counterexample :
    ¬ (∀ (fl : Faults) (s : KvStore) (k : String),
        (fl.encodeE ≠ none ∨ fl.seekE ≠ none ∨ fl.writeE ≠ none) →
        (∃ e, (KvStore.removeF fl s k).1 = Except.error e) →
        ((KvStore.removeF fl s k).2).map = s.map ∧
        ((KvStore.removeF fl s k).2).is_build = s.is_build ∧
        ((KvStore.removeF fl s k).2).count_of_set = s.count_of_set) := by
  intro hall
  have hfl : ({ encodeE := none, seekE := none, writeE := some "io" } : Faults).encodeE ≠
        none ∨
      ({ encodeE := none, seekE := none, writeE := some "io" } : Faults).seekE ≠ none ∨
      ({ encodeE := none, seekE := none, writeE := some "io" } : Faults).writeE ≠ none :=
    Or.inr (Or.inr (by simp))
  have hsnd := removeF_snd { encodeE := none, seekE := none, writeE := some "io" }
    { file_handle := encodeLog [Command.Set "a" "1"], map := [], is_build := false,
      count_of_set := 0 } "a" hfl
  have hbm := build_map_encodeLog
    { file_handle := encodeLog [Command.Set "a" "1"], map := [], is_build := false,
      count_of_set := 0 } [Command.Set "a" "1"] rfl rfl
  have herr := removeF_err { encodeE := none, seekE := none, writeE := some "io" }
    { file_handle := encodeLog [Command.Set "a" "1"], map := [], is_build := false,
      count_of_set := 0 } "a" hfl
  have h2 := (hall { encodeE := none, seekE := none, writeE := some "io" }
    { file_handle := encodeLog [Command.Set "a" "1"], map := [], is_build := false,
      count_of_set := 0 } "a" hfl herr).2.1
  rw [hsnd, hbm] at h2
  exact Bool.noConfusion h2

/-- **C10** (amended): `set` is atomic on failure — if encoding or the
seek/write fails, the error propagates with the whole store state
(index, built flag, counter, file) unchanged, since the index update and
counter increment follow the write.  For `remove`, the removal of the key
and the append likewise happen only after a successful write, but the
ensure-built step runs first: on failure the resulting state is exactly
the state after `build_map`, so when the index was already built, the
state is completely unchanged; when it was not, the failed call leaves
behind a freshly built index and built flag. -/
theorem C10_failure_atomicity :
    (∀ (fl : Faults) (s : KvStore) (k v : String),
      (fl.encodeE ≠ none ∨ fl.seekE ≠ none ∨ fl.writeE ≠ none) →
      ∃ e, KvStore.setF fl s k v = (Except.error e, s)) ∧
    (∀ (fl : Faults) (s : KvStore) (k : String),
      (fl.encodeE ≠ none ∨ fl.seekE ≠ none ∨ fl.writeE ≠ none) →
      (∃ e, (KvStore.removeF fl s k).1 = Except.error e) ∧
      (KvStore.removeF fl s k).2 = (KvStore.build_map s).2) ∧
    (∀ (fl : Faults) (s : KvStore) (k : String), s.is_build = true →
      (fl.encodeE ≠ none ∨ fl.seekE ≠ none ∨ fl.writeE ≠ none) →
      (KvStore.removeF fl s k).2 = s) := by
  refine ⟨?_, ?_, ?_⟩
  · intro fl s k v hfl
    obtain ⟨eE, sE, wE⟩ := fl
    cases eE with
    | some m => exact ⟨fromRonError m, rfl⟩
    | none =>
      cases sE with
      | some m => exact ⟨fromIoError m, rfl⟩
      | none =>
        cases wE with
        | some m => exact ⟨fromIoError m, rfl⟩
        | none => rcases hfl with h | h | h <;> exact absurd rfl h
  · exact fun fl s k hfl => ⟨removeF_err fl s k hfl, removeF_snd fl s k hfl⟩
  · intro fl s k hb hfl
    rw [removeF_snd fl s k hfl, build_map_built s hb]

/-- Witness for C10: a failing encode during `set` on a fresh store, and
a failing write during `remove` on a built store, at concrete inputs. -/
theorem C10_witness :
    (∃ e, KvStore.setF { encodeE := some "enc", seekE := none, writeE := none }
      (openDir none) "a" "1" = (Except.error e, openDir none)) ∧
    ((∃ e, (KvStore.removeF { encodeE := none, seekE := none, writeE := some "io" }
        { file_handle := [], map := [("a", 0)], is_build := true, count_of_set := 5 }
        "a").1 = Except.error e) ∧
      (KvStore.removeF { encodeE := none, seekE := none, writeE := some "io" }
        { file_handle := [], map := [("a", 0)], is_build := true, count_of_set := 5 }
        "a").2 = (KvStore.build_map
          { file_handle := [], map := [("a", 0)], is_build := true,
            count_of_set := 5 }).2) ∧
    (KvStore.removeF { encodeE := none, seekE := none, writeE := some "io" }
      { file_handle := [], map := [("a", 0)], is_build := true, count_of_set := 5 }
      "a").2 =
      { file_handle := [], map := [("a", 0)], is_build := true, count_of_set := 5 } :=
  ⟨C10_failure_atomicity.1 _ _ "a" "1" (Or.inl (by simp)),
    C10_failure_atomicity.2.1 _ _ "a" (Or.inr (Or.inr (by simp))),
    C10_failure_atomicity.2.2 _ _ "a" rfl (Or.inr (Or.inr (by simp)))⟩
